import Mathlib

/-! Factoradic / Lehmer-code codec.

A shallow embedding of the conversion routines of `factoradic.c`, `main2.c`,
`main3.c` and `main5.c`, and theorems about them.

Conventions of the embedding.

* `mpz_t` values are natural numbers (the codec is specified for non-negative
  numbers only; arbitrary precision, no overflow).
* `unsigned int` counters are natural numbers reduced modulo `2 ^ 32`.
* `int` cells (digits, permutation entries) are integers; the conversions
  `unsigned long → int` (storing `mpz_get_ui`) and `int → unsigned long`
  (the argument of `mpz_mul_ui`) are the two explicit casts below.
* A loop whose trip count is not fixed on entry takes a fuel argument and
  returns `none` when the fuel runs out, so that a loop which never exits is
  the function that is `none` for every fuel.
* `exit(EXIT_FAILURE)` and reads outside the initialised part of a buffer are
  the constructors of `Failure`.
-/

namespace Factoradic

/-! ## Machine integers -/

/-- Number of values of an `unsigned int`. -/
def UINT_SIZE : Nat := 4294967296

/-- Number of values of an `unsigned long` (LP64). -/
def ULONG_SIZE : Nat := 18446744073709551616

/-- The constant `MAX_DIGITS` of `factoradic.c`; also the size of the stack
buffers `avail[256]` of `main5.c`. -/
def MAX_DIGITS : Nat := 256

/-- Storing the `unsigned long` returned by `mpz_get_ui` into an `int` cell:
the low 32 bits, read as a two's complement number. -/
def int_of_ulong (q : Nat) : Int :=
  if q % UINT_SIZE < 2147483648 then ((q % UINT_SIZE : Nat) : Int)
  else ((q % UINT_SIZE : Nat) : Int) - 4294967296

/-- Passing an `int` cell as the `unsigned long` argument of `mpz_mul_ui`. -/
def ulong_of_int (d : Int) : Nat := (d % (ULONG_SIZE : Int)).toNat

/-- The values an `int` cell can hold. -/
def IsInt (x : Int) : Prop := -2147483648 ≤ x ∧ x < 2147483648

instance (x : Int) : Decidable (IsInt x) := by unfold IsInt; infer_instance

/-- The ways a conversion stops without a result. -/
inductive Failure where
  /-- Exit of `factoradic.c` with "Factoradic digit count exceeds maximum". -/
  | capacityExceeded : Failure
  /-- Exit of `main2.c`, `main3.c` with "Factoradic digit %d out of bounds at
  position %d". -/
  | digitOutOfBounds (digit : Int) (position : Nat) : Failure
  /-- Exit of `main2.c`, `main3.c` with "Invalid or duplicate value %d in
  permutation." -/
  | invalidPermutation (value : Int) : Failure
  /-- Return of mode 5 of `main5.c` with "-f required for mode 5". -/
  | lengthRequired : Failure
  /-- A read or write outside the initialised cells of a buffer. -/
  | undefinedAccess : Failure
  deriving DecidableEq

/-! ## factorial -/

/-- The loop `for (unsigned int i = 2; i <= n; i++) result *= i` of `factorial`;
`i++` wraps at `2 ^ 32`. -/
def factorialLoop (n : Nat) : Nat → Nat → Nat → Option Nat
  | 0, _, _ => none
  | fuel + 1, i, result =>
    if i ≤ n then factorialLoop n fuel ((i + 1) % UINT_SIZE) (result * i)
    else some result

/-- The function `factorial(result, n)` (the same in all four files). -/
def factorial (fuel n : Nat) : Option Nat := factorialLoop n fuel 2 1

/-! ## number → factoradic, minimal form -/

/-- The loop `while (mpz_cmp(fact, number) <= 0) { i++; factorial(fact, i); }`;
the result is the value of `i` on exit. -/
def searchLoop (fuel number : Nat) : Nat → Nat → Nat → Option Nat
  | 0, _, _ => none
  | k + 1, i, fact =>
    if fact ≤ number then
      match factorial fuel ((i + 1) % UINT_SIZE) with
      | none => none
      | some fact' => searchLoop fuel number k ((i + 1) % UINT_SIZE) fact'
    else some i

/-- The loop `for (; i >= 1; i--)` that emits the quotients, followed by the
final `digits[index++] = mpz_get_ui(number)`. -/
def digitLoop (fuel : Nat) : Nat → Nat → Option (List Int)
  | 0, number => some [int_of_ulong number]
  | i + 1, number =>
    match factorial fuel (i + 1) with
    | none => none
    | some fact =>
      match digitLoop fuel i (number % fact) with
      | none => none
      | some ds => some (int_of_ulong (number / fact) :: ds)

namespace Main3

/-- The function `dec_to_factoradic` of `main3.c` and `main2.c`. -/
def dec_to_factoradic (fuel number : Nat) : Option (List Int) :=
  match factorial fuel 0 with
  | none => none
  | some fact =>
    match searchLoop fuel number fuel 0 fact with
    | none => none
    | some i => digitLoop fuel ((i + UINT_SIZE - 1) % UINT_SIZE) number

end Main3

namespace FactoradicC

/-- The function `number_to_factoradic` of `factoradic.c`: as `dec_to_factoradic`,
with the test `if (i + 1 > MAX_DIGITS)` (in `unsigned int`) before the digits
are produced. -/
def number_to_factoradic (fuel number : Nat) : Option (Except Failure (List Int)) :=
  match factorial fuel 0 with
  | none => none
  | some fact =>
    match searchLoop fuel number fuel 0 fact with
    | none => none
    | some i =>
      if (((i + UINT_SIZE - 1) % UINT_SIZE) + 1) % UINT_SIZE > MAX_DIGITS then
        some (Except.error Failure.capacityExceeded)
      else
        match digitLoop fuel ((i + UINT_SIZE - 1) % UINT_SIZE) number with
        | none => none
        | some ds => some (Except.ok ds)

end FactoradicC

/-! ## factoradic → number -/

/-- The loop of `factoradic_to_dec` / `factoradic_to_number`: for each digit,
`factorial(fact, length - 1 - i); term = fact * digits[i]; result += term`. -/
def sumLoop (fuel length : Nat) : List Int → Nat → Nat → Option Nat
  | [], _, result => some result
  | d :: rest, i, result =>
    match factorial fuel (length - 1 - i) with
    | none => none
    | some fact => sumLoop fuel length rest (i + 1) (result + fact * ulong_of_int d)

namespace Main3

/-- The function `factoradic_to_dec` of `main3.c` and `main2.c`. -/
def factoradic_to_dec (fuel : Nat) (digits : List Int) : Option Nat :=
  sumLoop fuel digits.length digits 0 0

end Main3

namespace Main5

/-- The function `factoradic_to_number` of `main5.c`. -/
def factoradic_to_number (fuel : Nat) (digits : List Int) : Option Nat :=
  sumLoop fuel digits.length digits 0 0

end Main5

/-! ## number → factoradic, fixed length (`main5.c`) -/

/-- The loop `for (int i = 1; i < length; i++) factorial(div, i);` of
`main5.c`, whose results are discarded. -/
def warmupLoop (fuel : Nat) : Nat → Nat → Option Unit
  | 0, _ => some ()
  | k + 1, i =>
    match factorial fuel i with
    | none => none
    | some _ => warmupLoop fuel k (i + 1)

/-- The loop `for (int i = length - 1; i >= 0; i--)` of the fixed-length
`number_to_factoradic`; the first argument is `i + 1`. -/
def fixedLoop (fuel : Nat) : Nat → Nat → Option (List Int)
  | 0, _ => some []
  | i + 1, temp =>
    match factorial fuel i with
    | none => none
    | some div =>
      match fixedLoop fuel i (temp % div) with
      | none => none
      | some ds => some (int_of_ulong (temp / div) :: ds)

namespace Main5

/-- The function `number_to_factoradic(number, digits, length)` of `main5.c`. -/
def number_to_factoradic (fuel number length : Nat) : Option (List Int) :=
  match warmupLoop fuel (length - 1) 1 with
  | none => none
  | some _ => fixedLoop fuel length number

end Main5

/-! ## factoradic ↔ permutation (Lehmer code) -/

/-- The loop `for (int i = 0; i < length; i++) available[i] = i;`. -/
def initAvailable (length : Nat) : List Int :=
  List.map (fun (i : Nat) => (i : Int)) (List.range length)

/-- The loop `for (int j = index; j < length - i - 1; j++) available[j] = available[j + 1];`
the first argument is the number of iterations left, the second is `j`. -/
def shiftLoop : Nat → Nat → List Int → List Int
  | 0, _, available => available
  | k + 1, j, available =>
    shiftLoop k (j + 1) (available.set j (available.getD (j + 1) 0))

/-- The loop `while (available[index] != perm[i]) index++;` the list is the
cells of `available` from `index` on; running past the last initialised cell
is an undefined access. -/
def findLoop (x : Int) : List Int → Nat → Except Failure Nat
  | [], _ => Except.error Failure.undefinedAccess
  | a :: cells, index =>
    if a ≠ x then findLoop x cells (index + 1) else Except.ok index

/-- The main loop of `permutation_to_factoradic` (the same in `main2.c`,
`main3.c` and `main5.c`): search, record the index, shift. -/
def decodeLoop (length : Nat) : List Int → Nat → List Int → Except Failure (List Int)
  | [], _, _ => Except.ok []
  | x :: rest, i, available =>
    match findLoop x available 0 with
    | Except.error e => Except.error e
    | Except.ok index =>
      match decodeLoop length rest (i + 1)
          (shiftLoop (length - 1 - i - index) index available) with
      | Except.error e => Except.error e
      | Except.ok ds => Except.ok ((index : Int) :: ds)

namespace Main3

/-- The main loop of `factoradic_to_permutation` of `main3.c` and `main2.c`:
bounds test, read, shift. -/
def encodeLoop (length : Nat) : List Int → Nat → List Int → Except Failure (List Int)
  | [], _, _ => Except.ok []
  | index :: rest, i, available =>
    if index < 0 ∨ index ≥ (length : Int) - (i : Int) then
      Except.error (Failure.digitOutOfBounds index i)
    else
      match available[index.toNat]? with
      | none => Except.error Failure.undefinedAccess
      | some v =>
        match encodeLoop length rest (i + 1)
            (shiftLoop (length - i - 1 - index.toNat) index.toNat available) with
        | Except.error e => Except.error e
        | Except.ok perm => Except.ok (v :: perm)

/-- The function `factoradic_to_permutation` of `main3.c` and `main2.c`. -/
def factoradic_to_permutation (factoradic : List Int) : Except Failure (List Int) :=
  encodeLoop factoradic.length factoradic 0 (initAvailable factoradic.length)

/-- The validation loop of `permutation_to_factoradic` of `main3.c` and
`main2.c`, over the `seen` array. -/
def validateLoop (length : Nat) : List Int → List Bool → Except Failure Unit
  | [], _ => Except.ok ()
  | v :: rest, seen =>
    if v < 0 ∨ v ≥ (length : Int) ∨ seen.getD v.toNat false = true then
      Except.error (Failure.invalidPermutation v)
    else validateLoop length rest (seen.set v.toNat true)

/-- The function `permutation_to_factoradic` of `main3.c` and `main2.c`. -/
def permutation_to_factoradic (perm : List Int) : Except Failure (List Int) :=
  match validateLoop perm.length perm (List.replicate perm.length false) with
  | Except.error e => Except.error e
  | Except.ok _ => decodeLoop perm.length perm 0 (initAvailable perm.length)

end Main3

namespace Main5

/-- The main loop of `factoradic_to_permutation` of `main5.c`: read, shift,
without a bounds test. -/
def encodeLoop (length : Nat) : List Int → Nat → List Int → Except Failure (List Int)
  | [], _, _ => Except.ok []
  | k :: rest, i, avail =>
    if k < 0 then Except.error Failure.undefinedAccess
    else
      match avail[k.toNat]? with
      | none => Except.error Failure.undefinedAccess
      | some v =>
        match encodeLoop length rest (i + 1)
            (shiftLoop (length - i - 1 - k.toNat) k.toNat avail) with
        | Except.error e => Except.error e
        | Except.ok perm => Except.ok (v :: perm)

/-- The function `factoradic_to_permutation` of `main5.c`; `avail` has
`MAX_DIGITS` cells, of which the first `length` are initialised. -/
def factoradic_to_permutation (factoradic : List Int) : Except Failure (List Int) :=
  if factoradic.length > MAX_DIGITS then Except.error Failure.undefinedAccess
  else encodeLoop factoradic.length factoradic 0 (initAvailable factoradic.length)

/-- The function `permutation_to_factoradic` of `main5.c`. -/
def permutation_to_factoradic (perm : List Int) : Except Failure (List Int) :=
  if perm.length > MAX_DIGITS then Except.error Failure.undefinedAccess
  else decodeLoop perm.length perm 0 (initAvailable perm.length)

/-- Mode 5 of `main` in `main5.c`: refused when `fixed <= 0`, otherwise
`number_to_factoradic(num, digits, fixed)` followed by
`factoradic_to_permutation(digits, fixed, perm)`. -/
def number_to_permutation (fuel number fixed : Nat) : Option (Except Failure (List Int)) :=
  if fixed = 0 then some (Except.error Failure.lengthRequired)
  else
    match number_to_factoradic fuel number fixed with
    | none => none
    | some digits => some (factoradic_to_permutation digits)

/-- The pipeline `factoradic_to_number(permutation_to_factoradic(perm))` built from
the two functions of `main5.c`. -/
def permutation_to_number (fuel : Nat) (perm : List Int) : Option (Except Failure Nat) :=
  match permutation_to_factoradic perm with
  | Except.error e => some (Except.error e)
  | Except.ok digits =>
    match factoradic_to_number fuel digits with
    | none => none
    | some n => some (Except.ok n)

end Main5

/-! ## Specification-level notions -/

/-- The value of a digit sequence in the factorial number system, most
significant digit first: the digit followed by `k` digits has weight `k!`. -/
def factoradicValue : List Int → Int
  | [] => 0
  | d :: ds => d * (ds.length.factorial : Int) + factoradicValue ds

/-- Every digit is at least `0` and at most its place (the number of digits
after it). -/
def ValidDigits : List Int → Prop
  | [] => True
  | d :: ds => 0 ≤ d ∧ d ≤ (ds.length : Int) ∧ ValidDigits ds

/-- The list is a permutation of `0..L-1`, `L` its length: every value in
range, no value twice. -/
def IsPermutation (p : List Int) : Prop :=
  p.Nodup ∧ ∀ x ∈ p, 0 ≤ x ∧ x < (p.length : Int)

instance (p : List Int) : Decidable (IsPermutation p) := by
  unfold IsPermutation; infer_instance

/-- Position `k` of `p` holds a value that is out of range or equal to the
value at an earlier position. -/
def Offends (p : List Int) (k : Nat) : Prop :=
  p.getD k 0 < 0 ∨ p.getD k 0 ≥ (p.length : Int) ∨ ∃ j, j < k ∧ p.getD j 0 = p.getD k 0

/-- Digit `i` of `d` is not an index into the `L - i` live cells of the
available list. -/
def BadDigit (d : List Int) (i : Nat) : Prop :=
  d.getD i 0 < 0 ∨ d.getD i 0 ≥ (d.length : Int) - (i : Int)

/-- What the `seen` array records: cell `v` is set exactly when `v` is one of
the values read so far. -/
def SeenRep (length : Nat) (seen : List Bool) (earlier : List Int) : Prop :=
  seen.length = length ∧
    ∀ v : Nat, v < length → (seen.getD v false = true ↔ (v : Int) ∈ earlier)

/-- The Lehmer code of a list: for each element, the number of later elements
that are smaller. -/
def lehmerCode : List Int → List Int
  | [] => []
  | x :: rest => ((rest.filter fun y => decide (y < x)).length : Int) :: lehmerCode rest

/-! ## The available list during a conversion -/

namespace Main3

/-- The array `available` of `factoradic_to_permutation` (`main3.c`,
`main2.c`) after `k` rounds of its main loop (all of them when the digits run
out before), or the failure that ended the loop earlier. -/
def encodeAvailable (length : Nat) : Nat → List Int → Nat → List Int → Except Failure (List Int)
  | 0, _, _, available => Except.ok available
  | _ + 1, [], _, available => Except.ok available
  | k + 1, index :: rest, i, available =>
    if index < 0 ∨ index ≥ (length : Int) - (i : Int) then
      Except.error (Failure.digitOutOfBounds index i)
    else
      match available[index.toNat]? with
      | none => Except.error Failure.undefinedAccess
      | some _ =>
        encodeAvailable length k rest (i + 1)
          (shiftLoop (length - i - 1 - index.toNat) index.toNat available)

end Main3

/-- The array `available` of `permutation_to_factoradic` after `k` rounds of
its main loop (all of them when the values run out before), or the failure
that ended the loop earlier. -/
def decodeAvailable (length : Nat) : Nat → List Int → Nat → List Int → Except Failure (List Int)
  | 0, _, _, available => Except.ok available
  | _ + 1, [], _, available => Except.ok available
  | k + 1, x :: rest, i, available =>
    match findLoop x available 0 with
    | Except.error e => Except.error e
    | Except.ok index =>
      decodeAvailable length k rest (i + 1)
        (shiftLoop (length - 1 - i - index) index available)

/-! # Theorems -/

/-! ## factorial -/

theorem factorialLoop_eq (n : Nat) (hn : n + 1 < UINT_SIZE) :
    ∀ (k fuel j : Nat), j + k = n → k < fuel →
      factorialLoop n fuel (j + 1) j.factorial = some n.factorial := by
  intro k
  induction k with
  | zero =>
    intro fuel j hj hf
    obtain ⟨f, rfl⟩ : ∃ f, fuel = f + 1 := ⟨fuel - 1, by omega⟩
    have : j = n := by omega
    subst this
    simp [factorialLoop]
  | succ k ih =>
    intro fuel j hj hf
    obtain ⟨f, rfl⟩ : ∃ f, fuel = f + 1 := ⟨fuel - 1, by omega⟩
    have h1 : j + 1 ≤ n := by omega
    have h2 : (j + 1 + 1) % UINT_SIZE = j + 1 + 1 := Nat.mod_eq_of_lt (by omega)
    have h3 : j.factorial * (j + 1) = (j + 1).factorial := by
      rw [Nat.factorial_succ, Nat.mul_comm]
    simp only [factorialLoop, h1, if_true, h2, h3]
    exact ih f (j + 1) (by omega) (by omega)

theorem factorial_eq (fuel n : Nat) (hn : n + 1 < UINT_SIZE) (hf : n < fuel) :
    factorial fuel n = some n.factorial := by
  unfold factorial
  rcases Nat.eq_zero_or_pos n with h | h
  · subst h
    obtain ⟨f, rfl⟩ : ∃ f, fuel = f + 1 := ⟨fuel - 1, by omega⟩
    simp [factorialLoop]
  · have := factorialLoop_eq n hn (n - 1) fuel 1 (by omega) (by omega)
    simpa using this

theorem factorialLoop_uint_max (fuel : Nat) :
    ∀ (i result : Nat), i < UINT_SIZE →
      factorialLoop (UINT_SIZE - 1) fuel i result = none := by
  induction fuel with
  | zero => intro i result _; rfl
  | succ f ih =>
    intro i result hi
    have h1 : i ≤ UINT_SIZE - 1 := by omega
    simp only [factorialLoop, h1, if_true]
    exact ih _ _ (Nat.mod_lt _ (by decide))

theorem factorial_uint_max (fuel : Nat) : factorial fuel (UINT_SIZE - 1) = none :=
  factorialLoop_uint_max fuel 2 1 (by decide)


/-! ## Casts -/

theorem int_of_ulong_small (q : Nat) (h : q < 2147483648) : int_of_ulong q = (q : Int) := by
  have h1 : q % UINT_SIZE = q := Nat.mod_eq_of_lt (by unfold UINT_SIZE; omega)
  simp [int_of_ulong, h1, h]

theorem ulong_of_int_small (d : Int) (h0 : 0 ≤ d) (h : d < 2147483648) :
    ((ulong_of_int d : Nat) : Int) = d := by
  unfold ulong_of_int ULONG_SIZE
  have : d % ((18446744073709551616 : Nat) : Int) = d :=
    Int.emod_eq_of_lt h0 (by push_cast; omega)
  rw [this]
  exact Int.toNat_of_nonneg h0

/-! ## number → factoradic, minimal form -/

theorem searchLoop_eq (fuel number m : Nat) (hm : m + 2 < UINT_SIZE) (hfuel : m + 1 < fuel)
    (hle : ∀ j, j ≤ m → j.factorial ≤ number) (hlt : number < (m + 1).factorial) :
    ∀ (r k i : Nat), i + r = m + 1 → r < k →
      searchLoop fuel number k i i.factorial = some (m + 1) := by
  intro r
  induction r with
  | zero =>
    intro k i hi hk
    obtain ⟨k, rfl⟩ : ∃ k', k = k' + 1 := ⟨k - 1, by omega⟩
    have : i = m + 1 := by omega
    subst this
    have : ¬ (m + 1).factorial ≤ number := by omega
    simp [searchLoop, this]
  | succ r ih =>
    intro k i hi hk
    obtain ⟨k, rfl⟩ : ∃ k', k = k' + 1 := ⟨k - 1, by omega⟩
    have h1 : i.factorial ≤ number := hle i (by omega)
    have h2 : (i + 1) % UINT_SIZE = i + 1 := Nat.mod_eq_of_lt (by omega)
    have h3 : factorial fuel (i + 1) = some (i + 1).factorial :=
      factorial_eq fuel (i + 1) (by omega) (by omega)
    simp only [searchLoop, h1, if_true, h2, h3]
    exact ih k (i + 1) (by omega) (by omega)

theorem digitLoop_eq (fuel : Nat) :
    ∀ (i number : Nat), i < fuel → i < 2147483648 → number < (i + 1).factorial →
      ∃ ds, digitLoop fuel i number = some ds ∧ ds.length = i + 1 ∧ ValidDigits ds ∧
        factoradicValue ds = (number : Int) ∧
        ds.head? = some ((number / i.factorial : Nat) : Int) := by
  intro i
  induction i with
  | zero =>
    intro number _ _ hn
    have : number = 0 := by simpa using hn
    subst this
    refine ⟨[0], ?_, ?_, ?_, ?_, ?_⟩ <;> simp [digitLoop, int_of_ulong, ValidDigits, factoradicValue]
  | succ i ih =>
    intro number hf hi hn
    have hfact : factorial fuel (i + 1) = some (i + 1).factorial :=
      factorial_eq fuel (i + 1) (by unfold UINT_SIZE; omega) hf
    have hpos : 0 < (i + 1).factorial := Nat.factorial_pos _
    have hr : number % (i + 1).factorial < (i + 1).factorial := Nat.mod_lt _ hpos
    have hq : number / (i + 1).factorial < i + 2 := by
      rw [Nat.div_lt_iff_lt_mul hpos]
      have : (i + 1 + 1).factorial = (i + 2) * (i + 1).factorial := Nat.factorial_succ (i + 1)
      omega
    obtain ⟨ds, hds, hlen, hvalid, hval, _⟩ := ih (number % (i + 1).factorial) (by omega) (by omega) hr
    have hcast : int_of_ulong (number / (i + 1).factorial) = ((number / (i + 1).factorial : Nat) : Int) :=
      int_of_ulong_small _ (by omega)
    refine ⟨((number / (i + 1).factorial : Nat) : Int) :: ds, ?_, ?_, ?_, ?_, ?_⟩
    · simp [digitLoop, hfact, hds, hcast]
    · simp [hlen]
    · refine ⟨by positivity, ?_, hvalid⟩
      rw [hlen]
      exact_mod_cast (by omega : number / (i + 1).factorial ≤ i + 1)
    · simp only [factoradicValue, hlen, hval]
      have h2 : number / (i + 1).factorial * (i + 1).factorial + number % (i + 1).factorial = number := by
        rw [Nat.mul_comm]; exact Nat.div_add_mod number (i + 1).factorial
      exact_mod_cast h2
    · simp


theorem digitLoop_uint_max (fuel number : Nat) :
    digitLoop fuel (UINT_SIZE - 1) number = none := by
  have h : UINT_SIZE - 1 = 4294967294 + 1 := by decide
  have hf := factorial_uint_max fuel
  rw [h] at hf ⊢
  simp only [digitLoop, hf]

/-! ## factoradic → number -/

theorem sumLoop_eq (fuel length : Nat) (hlen : length < 2147483648) (hf : length ≤ fuel) :
    ∀ (rest : List Int) (i result : Nat), i + rest.length = length →
      (∀ d ∈ rest, 0 ≤ d ∧ d < 2147483648) →
      ∃ r, sumLoop fuel length rest i result = some r ∧
        (r : Int) = (result : Int) + factoradicValue rest := by
  intro rest
  induction rest with
  | nil => intro i result _ _; exact ⟨result, rfl, by simp [factoradicValue]⟩
  | cons d rest ih =>
    intro i result hi hd
    simp only [List.length_cons] at hi
    have hk : length - 1 - i = rest.length := by omega
    have hfact : factorial fuel rest.length = some rest.length.factorial :=
      factorial_eq fuel rest.length (by unfold UINT_SIZE; omega) (by omega)
    obtain ⟨r, hr, hval⟩ := ih (i + 1) (result + rest.length.factorial * ulong_of_int d)
      (by omega) (fun x hx => hd x (List.mem_cons_of_mem _ hx))
    refine ⟨r, ?_, ?_⟩
    · simp only [sumLoop, hk, hfact, hr]
    · have hd0 := hd d (List.mem_cons_self _ _)
      have hc := ulong_of_int_small d hd0.1 hd0.2
      rw [hval]
      push_cast
      rw [hc]
      simp only [factoradicValue]
      ring

theorem factoradicValue_eq_sum (ds : List Int) :
    factoradicValue ds =
      ∑ p in Finset.range ds.length, ds.getD p 0 * ((ds.length - 1 - p).factorial : Int) := by
  induction ds with
  | nil => simp [factoradicValue]
  | cons d ds ih =>
    rw [List.length_cons, Finset.sum_range_succ']
    simp only [factoradicValue, ih, List.getD_cons_succ, List.getD_cons_zero]
    have : ∀ p, ds.length + 1 - 1 - (p + 1) = ds.length - 1 - p := fun p => by omega
    simp only [this]
    simp
    ring

theorem validDigits_iff (ds : List Int) :
    ValidDigits ds ↔
      ∀ p, p < ds.length → 0 ≤ ds.getD p 0 ∧ ds.getD p 0 ≤ (ds.length : Int) - 1 - (p : Int) := by
  induction ds with
  | nil => simp [ValidDigits]
  | cons d ds ih =>
    simp only [ValidDigits, ih, List.length_cons]
    constructor
    · rintro ⟨h0, h1, h2⟩ p hp
      cases p with
      | zero => simp only [List.getD_cons_zero]; push_cast; omega
      | succ p =>
        have := h2 p (by omega)
        simp only [List.getD_cons_succ]; push_cast; omega
    · intro h
      have h0 := h 0 (by omega)
      simp only [List.getD_cons_zero] at h0
      push_cast at h0
      refine ⟨h0.1, by omega, fun p hp => ?_⟩
      have := h (p + 1) (by omega)
      simp only [List.getD_cons_succ] at this
      push_cast at this
      omega

/-- For `1 ≤ n < 256!` the search loop followed by `i--` leaves the largest `m`
with `m! ≤ n`, and the digit loop then produces the factoradic digits of `n`. -/
theorem minimal_digits (fuel n : Nat) (hn1 : 1 ≤ n) (hn2 : n < Nat.factorial 256)
    (hfuel : 258 ≤ fuel) :
    ∃ (ds : List Int) (m : Nat),
      factorial fuel 0 = some 1 ∧
      searchLoop fuel n fuel 0 1 = some (m + 1) ∧
      (m + 1 + UINT_SIZE - 1) % UINT_SIZE = m ∧ m < 256 ∧
      digitLoop fuel m n = some ds ∧
      m.factorial ≤ n ∧ (∀ j, j.factorial ≤ n → j ≤ m) ∧
      ds.length = m + 1 ∧ ValidDigits ds ∧ factoradicValue ds = (n : Int) ∧
      1 ≤ ds.getD 0 0 := by
  have hP0 : (0 : Nat).factorial ≤ n := by simpa using hn1
  have hgreatest : ∀ j, j.factorial ≤ n → j ≤ Nat.findGreatest (fun i => i.factorial ≤ n) n :=
    fun j hj => Nat.le_findGreatest (le_trans (Nat.self_le_factorial j) hj) hj
  generalize hm : Nat.findGreatest (fun i => i.factorial ≤ n) n = m at hgreatest
  have hm1 : m.factorial ≤ n := by
    have := Nat.findGreatest_spec (P := fun i => i.factorial ≤ n) (Nat.zero_le n) hP0
    rwa [hm] at this
  have hm2 : n < (m + 1).factorial := by
    by_contra h
    have := hgreatest (m + 1) (by omega)
    omega
  have hm3 : m < 256 := by
    by_contra h
    have := Nat.factorial_le (show 256 ≤ m by omega)
    omega
  have hle : ∀ j, j ≤ m → j.factorial ≤ n := fun j hj => le_trans (Nat.factorial_le hj) hm1
  have hsearch := searchLoop_eq fuel n m (by unfold UINT_SIZE; omega) (by omega) hle hm2
    (m + 1) fuel 0 (by omega) (by omega)
  obtain ⟨ds, hds, hlen, hvalid, hval, hhead⟩ := digitLoop_eq fuel m n (by omega) (by omega) hm2
  refine ⟨ds, m, factorial_eq fuel 0 (by decide) (by omega), by simpa using hsearch,
    by unfold UINT_SIZE; omega, hm3, hds, hm1, hgreatest, hlen, hvalid, hval, ?_⟩
  have hq : 1 ≤ n / m.factorial := Nat.div_pos hm1 (Nat.factorial_pos m)
  cases ds with
  | nil => simp at hlen
  | cons d ds =>
    simp only [List.head?_cons, Option.some.injEq] at hhead
    simp only [List.getD_cons_zero, hhead]
    exact_mod_cast hq

/-- Round trip of `main3.c` for positive numbers: `factoradic_to_dec` applied to
the digits `dec_to_factoradic` returns gives the number back. -/
theorem dec_to_factoradic_round_trip_pos (fuel n : Nat) (hn1 : 1 ≤ n)
    (hn2 : n < Nat.factorial 256) (hfuel : 258 ≤ fuel) :
    ∃ ds, Main3.dec_to_factoradic fuel n = some ds ∧
      Main3.factoradic_to_dec fuel ds = some n := by
  obtain ⟨ds, m, h0, hs, hdec, hm, hds, _, _, hlen, hvalid, hval, _⟩ :=
    minimal_digits fuel n hn1 hn2 hfuel
  refine ⟨ds, by simp only [Main3.dec_to_factoradic, h0, hs, hdec, hds], ?_⟩
  have hbound : ∀ d ∈ ds, 0 ≤ d ∧ d < 2147483648 := by
    intro d hd
    obtain ⟨p, hp, rfl⟩ := List.getElem_of_mem hd
    have := (validDigits_iff ds).1 hvalid p hp
    rw [List.getD_eq_getElem _ _ hp] at this
    omega
  obtain ⟨r, hr, hrv⟩ := sumLoop_eq fuel ds.length (by omega) (by omega) ds 0 0 (by omega) hbound
  have : r = n := by
    rw [hval] at hrv
    exact_mod_cast (by simpa using hrv : (r : Int) = (n : Int))
  rw [Main3.factoradic_to_dec, hr, this]


/-- At `0` the search loop exits at once with `i = 0`, `i--` wraps to
`UINT_MAX`, and `factorial(fact, UINT_MAX)` never leaves its loop. -/
theorem dec_to_factoradic_zero (fuel : Nat) : Main3.dec_to_factoradic fuel 0 = none := by
  cases fuel with
  | zero => rfl
  | succ f =>
    have h0 : factorial (f + 1) 0 = some 1 := factorial_eq (f + 1) 0 (by decide) (by omega)
    have h1 : searchLoop (f + 1) 0 (f + 1) 0 1 = some 0 := by simp [searchLoop]
    have h2 : (0 + UINT_SIZE - 1) % UINT_SIZE = UINT_SIZE - 1 := by decide
    simp only [Main3.dec_to_factoradic, h0, h1, h2, digitLoop_uint_max]

theorem number_to_factoradic_zero (fuel : Nat) :
    FactoradicC.number_to_factoradic fuel 0 = none := by
  cases fuel with
  | zero => rfl
  | succ f =>
    have h0 : factorial (f + 1) 0 = some 1 := factorial_eq (f + 1) 0 (by decide) (by omega)
    have h1 : searchLoop (f + 1) 0 (f + 1) 0 1 = some 0 := by simp [searchLoop]
    have h2 : (0 + UINT_SIZE - 1) % UINT_SIZE = UINT_SIZE - 1 := by decide
    have h3 : ¬ ((UINT_SIZE - 1 + 1) % UINT_SIZE > MAX_DIGITS) := by decide
    simp only [FactoradicC.number_to_factoradic, h0, h1, h2, h3, if_false, digitLoop_uint_max]

/-- C1 (at the input `0`): `dec_to_factoradic` of `main3.c` never returns on
`0`, for any amount of fuel, so the round trip
`factoradic_to_dec(dec_to_factoradic(0))` produces no number at all, while on
`1` the same pipeline returns `1`. -/
theorem round_trip_zero_never_returns :
    (∀ fuel, (Main3.dec_to_factoradic fuel 0).bind (Main3.factoradic_to_dec fuel) = none) ∧
      (Main3.dec_to_factoradic 258 1).bind (Main3.factoradic_to_dec 258) = some 1 := by
  refine ⟨fun fuel => ?_, by decide⟩
  rw [dec_to_factoradic_zero]
  rfl

/-- C8: on a sequence of non-negative `int` digits, with no upper bound on the
digits, `factoradic_to_number` (`main5.c`) and `factoradic_to_dec` (`main3.c`)
return the sum of `d[p] · (L-1-p)!`; the empty sequence gives `0`. -/
theorem factoradic_to_number_eq_sum (fuel : Nat) (d : List Int)
    (hint : ∀ x ∈ d, IsInt x) (hnonneg : ∀ x ∈ d, 0 ≤ x)
    (hlen : d.length < 2147483648) (hfuel : d.length ≤ fuel) :
    (∃ r : Nat, Main5.factoradic_to_number fuel d = some r ∧
      Main3.factoradic_to_dec fuel d = some r ∧
      (r : Int) = ∑ p in Finset.range d.length,
        d.getD p 0 * ((d.length - 1 - p).factorial : Int)) ∧
    Main5.factoradic_to_number fuel [] = some 0 ∧
    Main3.factoradic_to_dec fuel [] = some 0 := by
  refine ⟨?_, rfl, rfl⟩
  obtain ⟨r, hr, hrv⟩ := sumLoop_eq fuel d.length hlen hfuel d 0 0 (by omega)
    (fun x hx => ⟨hnonneg x hx, (hint x hx).2⟩)
  refine ⟨r, hr, hr, ?_⟩
  rw [hrv, factoradicValue_eq_sum]
  simp

theorem factoradic_to_number_eq_sum_witness :
    (∃ r : Nat, Main5.factoradic_to_number 3 [5, 7, 0] = some r ∧
      Main3.factoradic_to_dec 3 [5, 7, 0] = some r ∧
      (r : Int) = ∑ p in Finset.range [5, 7, (0 : Int)].length,
        [5, 7, (0 : Int)].getD p 0 * (([5, 7, (0 : Int)].length - 1 - p).factorial : Int)) ∧
    Main5.factoradic_to_number 3 [] = some 0 ∧
    Main3.factoradic_to_dec 3 [] = some 0 :=
  factoradic_to_number_eq_sum 3 [5, 7, 0] (by decide) (by decide) (by decide) (by decide)

/-- C9: for `1 ≤ n < 256!`, `number_to_factoradic` of `factoradic.c` returns a
digit sequence of length `i + 1`, `i` the largest index with `i! ≤ n`, whose
leading digit is at least `1`, whose digits satisfy `0 ≤ d[p] ≤ L-1-p` (so the
last one is `0`) and whose value `Σ d[p] · (L-1-p)!` is `n`; `23` gives
`[3,2,1,0]` and `1` gives `[1,0]`. -/
theorem number_to_factoradic_minimal_form (fuel n : Nat) (hn1 : 1 ≤ n)
    (hn2 : n < Nat.factorial 256) (hfuel : 258 ≤ fuel) :
    (∃ (ds : List Int) (i : Nat),
      FactoradicC.number_to_factoradic fuel n = some (Except.ok ds) ∧
      i.factorial ≤ n ∧ (∀ j, j.factorial ≤ n → j ≤ i) ∧
      ds.length = i + 1 ∧
      1 ≤ ds.getD 0 0 ∧
      (∀ p, p < ds.length → 0 ≤ ds.getD p 0 ∧ ds.getD p 0 ≤ (ds.length : Int) - 1 - (p : Int)) ∧
      ds.getD (ds.length - 1) 0 = 0 ∧
      ∑ p in Finset.range ds.length,
        ds.getD p 0 * ((ds.length - 1 - p).factorial : Int) = (n : Int)) ∧
    FactoradicC.number_to_factoradic 258 23 = some (Except.ok [3, 2, 1, 0]) ∧
    FactoradicC.number_to_factoradic 258 1 = some (Except.ok [1, 0]) := by
  refine ⟨?_, rfl, rfl⟩
  obtain ⟨ds, m, h0, hs, hdec, hm, hds, hm1, hgreatest, hlen, hvalid, hval, hhead⟩ :=
    minimal_digits fuel n hn1 hn2 hfuel
  have hcap : ¬ ((m + 1) % UINT_SIZE > MAX_DIGITS) := by
    unfold UINT_SIZE MAX_DIGITS; omega
  have hbounds := (validDigits_iff ds).1 hvalid
  refine ⟨ds, m, ?_, hm1, hgreatest, hlen, hhead, hbounds, ?_, ?_⟩
  · simp only [FactoradicC.number_to_factoradic, h0, hs, hdec, hcap, if_false, hds]
  · have := hbounds (ds.length - 1) (by omega)
    have hc : ((ds.length - 1 : Nat) : Int) = (ds.length : Int) - 1 := by omega
    omega
  · rw [← factoradicValue_eq_sum, hval]

theorem number_to_factoradic_minimal_form_witness :
    (∃ (ds : List Int) (i : Nat),
      FactoradicC.number_to_factoradic 258 23 = some (Except.ok ds) ∧
      i.factorial ≤ 23 ∧ (∀ j, j.factorial ≤ 23 → j ≤ i) ∧
      ds.length = i + 1 ∧
      1 ≤ ds.getD 0 0 ∧
      (∀ p, p < ds.length → 0 ≤ ds.getD p 0 ∧ ds.getD p 0 ≤ (ds.length : Int) - 1 - (p : Int)) ∧
      ds.getD (ds.length - 1) 0 = 0 ∧
      ∑ p in Finset.range ds.length,
        ds.getD p 0 * ((ds.length - 1 - p).factorial : Int) = ((23 : Nat) : Int)) ∧
    FactoradicC.number_to_factoradic 258 23 = some (Except.ok [3, 2, 1, 0]) ∧
    FactoradicC.number_to_factoradic 258 1 = some (Except.ok [1, 0]) :=
  number_to_factoradic_minimal_form 258 23 (by decide)
    (lt_of_lt_of_le (by decide) (Nat.self_le_factorial 256)) (by decide)

/-- C10 (at the input `0`): `number_to_factoradic` of `factoradic.c` and
`dec_to_factoradic` of `main3.c` never return on `0`, whatever the fuel: the
capacity test is passed (`i + 1` wraps to `0`) and the digit loop starts at
`i = UINT_MAX`; in particular neither returns `[0]`. -/
theorem number_to_factoradic_zero_never_returns (fuel : Nat) :
    FactoradicC.number_to_factoradic fuel 0 = none ∧
      Main3.dec_to_factoradic fuel 0 = none ∧
      FactoradicC.number_to_factoradic fuel 0 ≠ some (Except.ok [0]) ∧
      Main3.dec_to_factoradic fuel 0 ≠ some [0] := by
  refine ⟨number_to_factoradic_zero fuel, dec_to_factoradic_zero fuel, ?_, ?_⟩
  · rw [number_to_factoradic_zero]; simp
  · rw [dec_to_factoradic_zero]; simp

/-! ## The available list -/

theorem shiftLoop_length : ∀ (k j : Nat) (av : List Int), (shiftLoop k j av).length = av.length := by
  intro k
  induction k with
  | zero => intro j av; rfl
  | succ k ih => intro j av; simp [shiftLoop, ih]

theorem shiftLoop_getElem? : ∀ (k j : Nat) (av : List Int) (p : Nat), j + k < av.length →
    (shiftLoop k j av)[p]? = if j ≤ p ∧ p < j + k then av[p + 1]? else av[p]? := by
  intro k
  induction k with
  | zero =>
    intro j av p _
    have : ¬ (j ≤ p ∧ p < j) := by omega
    simp [shiftLoop, this]
  | succ k ih =>
    intro j av p h
    have hj1 : j + 1 < av.length := by omega
    simp only [shiftLoop]
    rw [ih (j + 1) _ p (by simpa using (by omega : j + 1 + k < av.length))]
    rw [List.getD_eq_getElem _ _ hj1]
    simp only [List.getElem?_set]
    by_cases hjp : j = p
    · subst hjp
      have h1 : ¬ (j + 1 ≤ j ∧ j < j + 1 + k) := by omega
      have h2 : j ≤ j ∧ j < j + (k + 1) := by omega
      have h3 : j < av.length := by omega
      simp [h1, h2, h3, List.getElem?_eq_getElem hj1]
    · by_cases hc : j + 1 ≤ p ∧ p < j + 1 + k
      · have h2 : j ≤ p ∧ p < j + (k + 1) := by omega
        have h3 : j ≠ p + 1 := by omega
        simp [hc, h2, h3]
      · have h2 : ¬ (j ≤ p ∧ p < j + (k + 1)) := by omega
        simp [hc, h2, hjp]

/-- One round of shifting removes cell `index` from the live part (the first
`m` cells) of the available list. -/
theorem take_shiftLoop (av : List Int) (m index : Nat) (hm : m ≤ av.length) (hi : index < m) :
    (shiftLoop (m - 1 - index) index av).take (m - 1) = (av.take m).eraseIdx index := by
  apply List.ext_getElem?
  intro p
  rw [List.getElem?_take, List.getElem?_eraseIdx, List.getElem?_take, List.getElem?_take,
    shiftLoop_getElem? _ _ _ _ (by omega)]
  by_cases h1 : p < m - 1
  · by_cases h2 : p < index
    · have h3 : ¬ (index ≤ p ∧ p < index + (m - 1 - index)) := by omega
      have h4 : p < m := by omega
      simp [h1, h2, h3, h4]
    · have h3 : index ≤ p ∧ p < index + (m - 1 - index) := by omega
      have h4 : p + 1 < m := by omega
      simp [h1, h2, h3, h4]
  · by_cases h2 : p < index
    · omega
    · have h4 : ¬ (p + 1 < m) := by omega
      simp [h1, h2, h4]

theorem findLoop_eq (x : Int) : ∀ (cells : List Int) (index : Nat), x ∈ cells →
    findLoop x cells index = Except.ok (index + cells.indexOf x) := by
  intro cells
  induction cells with
  | nil => intro index h; simp at h
  | cons a cells ih =>
    intro index h
    by_cases hax : a = x
    · subst hax
      simp [findLoop]
    · have hx : x ∈ cells := by
        rcases List.mem_cons.1 h with h | h
        · exact absurd h.symm hax
        · exact h
      simp only [findLoop, ne_eq, hax, not_false_eq_true, if_true]
      rw [ih (index + 1) hx, List.indexOf_cons_ne _ hax]
      congr 1
      omega

theorem findLoop_not_mem (x : Int) : ∀ (cells : List Int) (index : Nat), x ∉ cells →
    findLoop x cells index = Except.error Failure.undefinedAccess := by
  intro cells
  induction cells with
  | nil => intro index _; rfl
  | cons a cells ih =>
    intro index h
    have hax : a ≠ x := fun h' => h (by simp [h'])
    have hx : x ∉ cells := fun h' => h (List.mem_cons_of_mem _ h')
    simp only [findLoop, ne_eq, hax, not_false_eq_true, if_true]
    exact ih (index + 1) hx

/-- The search finds a value of the live part at its position in the live part. -/
theorem findLoop_live (av : List Int) (m : Nat) (x : Int) (hx : x ∈ av.take m) :
    findLoop x av 0 = Except.ok ((av.take m).indexOf x) := by
  have h1 := findLoop_eq x av 0 (List.mem_of_mem_take hx)
  have h2 : av.indexOf x = (av.take m).indexOf x := by
    conv_lhs => rw [← List.take_append_drop m av]
    exact List.indexOf_append_of_mem hx
  rw [h1, h2]
  simp

/-! ## factoradic ↔ permutation: the two loops are inverse to each other -/

/-- Encoding valid digits succeeds, decoding the result from the same state of
the available list gives the digits back, and the result is a rearrangement
of the live part of the available list. -/
theorem encodeLoop_decodeLoop (length : Nat) :
    ∀ (ds : List Int) (i : Nat) (av : List Int), i + ds.length = length → av.length = length →
      (av.take (length - i)).Nodup → ValidDigits ds →
      ∃ perm, Main3.encodeLoop length ds i av = Except.ok perm ∧
        decodeLoop length perm i av = Except.ok ds ∧
        perm.Perm (av.take (length - i)) := by
  intro ds
  induction ds with
  | nil =>
    intro i av hi hav _ _
    refine ⟨[], rfl, rfl, ?_⟩
    have : length - i = 0 := by simp at hi; omega
    simp [this]
  | cons d ds ih =>
    intro i av hi hav hnd hvalid
    obtain ⟨hd0, hd1, hvalid'⟩ := hvalid
    simp only [List.length_cons] at hi
    obtain ⟨k, rfl⟩ : ∃ k : Nat, d = (k : Int) := ⟨d.toNat, (Int.toNat_of_nonneg hd0).symm⟩
    have hk : k ≤ ds.length := by exact_mod_cast hd1
    have hm : length - i = ds.length + 1 := by omega
    have hkav : k < av.length := by omega
    have hcheck : ¬ ((k : Int) < 0 ∨ (k : Int) ≥ (length : Int) - (i : Int)) := by omega
    have htake := take_shiftLoop av (length - i) k (by omega) (by omega)
    have hcnt : length - i - 1 - k = length - 1 - i - k := by omega
    have hnd' : ((shiftLoop (length - i - 1 - k) k av).take (length - (i + 1))).Nodup := by
      have : length - (i + 1) = length - i - 1 := by omega
      rw [this, htake]
      exact (List.eraseIdx_sublist _ _).nodup hnd
    obtain ⟨perm, he, hdec, hperm⟩ := ih (i + 1) (shiftLoop (length - i - 1 - k) k av)
      (by omega) (by rw [shiftLoop_length]; exact hav) hnd' hvalid'
    have hklv : k < (av.take (length - i)).length := by
      rw [List.length_take]; omega
    have hget : (av.take (length - i))[k] = av[k] := List.getElem_take _
    have hmem : av[k] ∈ av.take (length - i) := by
      rw [← hget]; exact List.getElem_mem _
    have hidx : (av.take (length - i)).indexOf av[k] = k := by
      rw [← hget]; exact List.indexOf_getElem hnd k hklv
    refine ⟨av[k] :: perm, ?_, ?_, ?_⟩
    · simp only [Main3.encodeLoop, if_neg hcheck, Int.toNat_ofNat, List.getElem?_eq_getElem hkav, he]
    · simp only [decodeLoop, findLoop_live av (length - i) _ hmem, hidx, ← hcnt, hdec]
    · have h1 : (av.take (length - i)).eraseIdx k = (av.take (length - i)).erase av[k] := by
        rw [← hget]; exact (List.Nodup.erase_getElem hnd k hklv).symm
      have h2 : length - (i + 1) = length - i - 1 := by omega
      rw [h2, htake, h1] at hperm
      exact (List.Perm.cons _ hperm).trans (List.perm_cons_erase hmem).symm

/-- Decoding a duplicate-free list of values of the live part succeeds, the
digits it returns are valid, and encoding them from the same state of the
available list gives the values back. -/
theorem decodeLoop_encodeLoop (length : Nat) :
    ∀ (ps : List Int) (i : Nat) (av : List Int), i + ps.length = length → av.length = length →
      (av.take (length - i)).Nodup → ps.Nodup → (∀ x ∈ ps, x ∈ av.take (length - i)) →
      ∃ ds, decodeLoop length ps i av = Except.ok ds ∧
        Main3.encodeLoop length ds i av = Except.ok ps ∧
        ValidDigits ds ∧ ds.length = ps.length := by
  intro ps
  induction ps with
  | nil => intro i av _ _ _ _ _; exact ⟨[], rfl, rfl, trivial, rfl⟩
  | cons x ps ih =>
    intro i av hi hav hnd hps hmem
    simp only [List.length_cons] at hi
    have hx : x ∈ av.take (length - i) := hmem x (List.mem_cons_self _ _)
    have hidx : (av.take (length - i)).indexOf x < (av.take (length - i)).length :=
      List.indexOf_lt_length.2 hx
    generalize hk : (av.take (length - i)).indexOf x = k at hidx
    have hlen : (av.take (length - i)).length = length - i := by
      rw [List.length_take]; omega
    have hkm : k < length - i := by omega
    have hkav : k < av.length := by omega
    have hget : av[k] = x := by
      have h1 : (av.take (length - i))[k] = av[k] := List.getElem_take _
      rw [← h1]
      subst hk
      exact List.getElem_indexOf _
    have htake := take_shiftLoop av (length - i) k (by omega) hkm
    have hcnt : length - i - 1 - k = length - 1 - i - k := by omega
    have herase : (av.take (length - i)).eraseIdx k = (av.take (length - i)).erase x := by
      have h1 : (av.take (length - i))[k] = av[k] := List.getElem_take _
      rw [← hget, ← h1]
      exact (List.Nodup.erase_getElem hnd k (by omega)).symm
    have h2 : length - (i + 1) = length - i - 1 := by omega
    have hnd' : ((shiftLoop (length - 1 - i - k) k av).take (length - (i + 1))).Nodup := by
      rw [h2, ← hcnt, htake]
      exact (List.eraseIdx_sublist _ _).nodup hnd
    have hmem' : ∀ y ∈ ps, y ∈ (shiftLoop (length - 1 - i - k) k av).take (length - (i + 1)) := by
      intro y hy
      rw [h2, ← hcnt, htake, herase, List.Nodup.mem_erase_iff hnd]
      refine ⟨?_, hmem y (List.mem_cons_of_mem _ hy)⟩
      rintro rfl
      exact (List.nodup_cons.1 hps).1 hy
    obtain ⟨ds, hdec, henc, hvalid, hdslen⟩ := ih (i + 1) (shiftLoop (length - 1 - i - k) k av)
      (by omega) (by rw [shiftLoop_length]; exact hav) hnd' (List.nodup_cons.1 hps).2 hmem'
    have hcheck : ¬ ((k : Int) < 0 ∨ (k : Int) ≥ (length : Int) - (i : Int)) := by omega
    refine ⟨(k : Int) :: ds, ?_, ?_, ?_, by simp [hdslen]⟩
    · simp only [decodeLoop, findLoop_live av (length - i) x hx, hk, hdec]
    · simp only [Main3.encodeLoop, if_neg hcheck, Int.toNat_ofNat,
        List.getElem?_eq_getElem hkav, hcnt, henc, hget]
    · refine ⟨Int.ofNat_nonneg k, ?_, hvalid⟩
      rw [hdslen]
      have : k ≤ ps.length := by omega
      show (k : Int) ≤ (ps.length : Int)
      exact_mod_cast this

/-! ## The initial available list and the validation loop -/

theorem length_initAvailable (length : Nat) : (initAvailable length).length = length := by
  simp [initAvailable]

theorem mem_initAvailable (length : Nat) (x : Int) :
    x ∈ initAvailable length ↔ 0 ≤ x ∧ x < (length : Int) := by
  simp only [initAvailable, List.mem_map, List.mem_range]
  constructor
  · rintro ⟨a, ha, rfl⟩
    exact ⟨Int.ofNat_nonneg a, by exact_mod_cast ha⟩
  · rintro ⟨h0, h1⟩
    refine ⟨x.toNat, by omega, ?_⟩
    exact Int.toNat_of_nonneg h0

theorem nodup_initAvailable (length : Nat) : (initAvailable length).Nodup :=
  List.Nodup.map (fun _ _ h => Int.ofNat.inj h) (List.nodup_range length)

theorem take_initAvailable (length : Nat) :
    (initAvailable length).take (length - 0) = initAvailable length := by
  apply List.take_of_length_le
  simp [length_initAvailable]

theorem seenRep_replicate (length : Nat) : SeenRep length (List.replicate length false) [] := by
  refine ⟨by simp, fun v hv => ?_⟩
  simp [List.getD_eq_getElem?_getD, List.getElem?_replicate, hv]

theorem seenRep_set (length : Nat) (seen : List Bool) (earlier : List Int) (v : Int)
    (h : SeenRep length seen earlier) (h0 : 0 ≤ v) (h1 : v < (length : Int)) :
    SeenRep length (seen.set v.toNat true) (v :: earlier) := by
  obtain ⟨hlen, hrep⟩ := h
  refine ⟨by simp [hlen], fun w hw => ?_⟩
  have hvl : v.toNat < seen.length := by omega
  rw [List.getD_eq_getElem?_getD, List.getElem?_set]
  by_cases hwv : v.toNat = w
  · subst hwv
    simp [hvl, Int.toNat_of_nonneg h0]
  · have hne : (w : Int) ≠ v := by omega
    rw [if_neg hwv, ← List.getD_eq_getElem?_getD, hrep w hw]
    simp [hne]

/-- The validation loop either accepts, and then every value is in range, new
and not repeated, or stops at the first value that is out of range, already
seen, or repeated. -/
theorem validateLoop_cases (length : Nat) :
    ∀ (ps : List Int) (seen : List Bool) (earlier : List Int), SeenRep length seen earlier →
      (Main3.validateLoop length ps seen = Except.ok () ∧
        (∀ x ∈ ps, 0 ≤ x ∧ x < (length : Int) ∧ x ∉ earlier) ∧ ps.Nodup) ∨
      (∃ pre x post, ps = pre ++ x :: post ∧
        Main3.validateLoop length ps seen = Except.error (Failure.invalidPermutation x) ∧
        (x < 0 ∨ x ≥ (length : Int) ∨ x ∈ earlier ∨ x ∈ pre) ∧
        (∀ y ∈ pre, 0 ≤ y ∧ y < (length : Int) ∧ y ∉ earlier) ∧ pre.Nodup) := by
  intro ps
  induction ps with
  | nil => intro seen earlier _; exact Or.inl ⟨rfl, by simp, List.nodup_nil⟩
  | cons v rest ih =>
    intro seen earlier hrep
    by_cases hbad : v < 0 ∨ v ≥ (length : Int) ∨ seen.getD v.toNat false = true
    · right
      refine ⟨[], v, rest, rfl, by simp only [Main3.validateLoop, if_pos hbad], ?_, by simp, List.nodup_nil⟩
      rcases hbad with h | h | h
      · exact Or.inl h
      · exact Or.inr (Or.inl h)
      · by_cases hr : 0 ≤ v ∧ v < (length : Int)
        · have := (hrep.2 v.toNat (by omega)).1 h
          rw [Int.toNat_of_nonneg hr.1] at this
          exact Or.inr (Or.inr (Or.inl this))
        · by_cases h0 : v < 0
          · exact Or.inl h0
          · exact Or.inr (Or.inl (by omega))
    · have h0 : 0 ≤ v := by
        by_contra h; exact hbad (Or.inl (by omega))
      have h1 : v < (length : Int) := by
        by_contra h; exact hbad (Or.inr (Or.inl (by omega)))
      have h2 : v ∉ earlier := by
        intro hmem
        apply hbad
        right; right
        apply (hrep.2 v.toNat (by omega)).2
        rwa [Int.toNat_of_nonneg h0]
      have hstep : Main3.validateLoop length (v :: rest) seen =
          Main3.validateLoop length rest (seen.set v.toNat true) := by
        simp only [Main3.validateLoop, if_neg hbad]
      rcases ih (seen.set v.toNat true) (v :: earlier) (seenRep_set length seen earlier v hrep h0 h1)
        with ⟨hok, hall, hnd⟩ | ⟨pre, x, post, hps, herr, hx, hpre, hprend⟩
      · left
        refine ⟨by rw [hstep, hok], ?_, ?_⟩
        · intro x hx
          rcases List.mem_cons.1 hx with rfl | hx
          · exact ⟨h0, h1, h2⟩
          · obtain ⟨a, b, c⟩ := hall x hx
            exact ⟨a, b, fun h => c (List.mem_cons_of_mem _ h)⟩
        · refine List.nodup_cons.2 ⟨fun hv => ?_, hnd⟩
          exact (hall v hv).2.2 (List.mem_cons_self _ _)
      · right
        refine ⟨v :: pre, x, post, by simp [hps], by rw [hstep, herr], ?_, ?_, ?_⟩
        · rcases hx with h | h | h | h
          · exact Or.inl h
          · exact Or.inr (Or.inl h)
          · rcases List.mem_cons.1 h with rfl | h
            · exact Or.inr (Or.inr (Or.inr (List.mem_cons_self _ _)))
            · exact Or.inr (Or.inr (Or.inl h))
          · exact Or.inr (Or.inr (Or.inr (List.mem_cons_of_mem _ h)))
        · intro y hy
          rcases List.mem_cons.1 hy with rfl | hy
          · exact ⟨h0, h1, h2⟩
          · obtain ⟨a, b, c⟩ := hpre y hy
            exact ⟨a, b, fun h => c (List.mem_cons_of_mem _ h)⟩
        · refine List.nodup_cons.2 ⟨fun hv => ?_, hprend⟩
          exact (hpre v hv).2.2 (List.mem_cons_self _ _)

/-! ## factoradic ↔ permutation: the functions -/

theorem validDigits_of_bounds (d : List Int)
    (hd : ∀ i, i < d.length → 0 ≤ d.getD i 0 ∧ d.getD i 0 < (d.length : Int) - (i : Int)) :
    ValidDigits d := by
  rw [validDigits_iff]
  intro p hp
  have := hd p hp
  omega

theorem validate_of_isPermutation (p : List Int) (hp : IsPermutation p) :
    Main3.validateLoop p.length p (List.replicate p.length false) = Except.ok () := by
  rcases validateLoop_cases p.length p _ [] (seenRep_replicate p.length) with
    ⟨hok, _, _⟩ | ⟨pre, x, post, hps, _, hx, _, _⟩
  · exact hok
  · exfalso
    have hxp : x ∈ p := by rw [hps]; simp
    have hr := hp.2 x hxp
    rcases hx with h | h | h | h
    · omega
    · omega
    · simp at h
    · have hnd := hp.1
      rw [hps] at hnd
      have := (List.nodup_append.1 hnd).2.2
      exact this h (List.mem_cons_self _ _)

theorem isPermutation_of_perm_initAvailable (p : List Int)
    (h : p.Perm (initAvailable p.length)) : IsPermutation p :=
  ⟨(List.Perm.nodup_iff h).2 (nodup_initAvailable _),
    fun x hx => (mem_initAvailable _ x).1 ((List.Perm.mem_iff h).1 hx)⟩

/-- Encoding valid digits with `factoradic_to_permutation` of `main3.c` gives a
rearrangement of `0..L-1` that `permutation_to_factoradic` decodes to the
digits. -/
theorem encode_valid (d : List Int) (hd : ValidDigits d) :
    ∃ perm, Main3.factoradic_to_permutation d = Except.ok perm ∧
      Main3.permutation_to_factoradic perm = Except.ok d ∧
      perm.Perm (initAvailable d.length) ∧ perm.length = d.length := by
  obtain ⟨perm, he, hdec, hperm⟩ := encodeLoop_decodeLoop d.length d 0 (initAvailable d.length)
    (by omega) (length_initAvailable _) (by rw [take_initAvailable]; exact nodup_initAvailable _) hd
  rw [take_initAvailable] at hperm
  have hlen : perm.length = d.length := by rw [hperm.length_eq, length_initAvailable]
  refine ⟨perm, he, ?_, hperm, hlen⟩
  have hip : IsPermutation perm := isPermutation_of_perm_initAvailable perm (by rw [hlen]; exact hperm)
  have hv := validate_of_isPermutation perm hip
  rw [hlen] at hv
  simp only [Main3.permutation_to_factoradic, hlen, hv, hdec]

/-- Decoding a permutation with `permutation_to_factoradic` of `main3.c` gives
valid digits that `factoradic_to_permutation` encodes to the permutation. -/
theorem decode_valid (p : List Int) (hp : IsPermutation p) :
    ∃ ds, Main3.permutation_to_factoradic p = Except.ok ds ∧
      Main3.factoradic_to_permutation ds = Except.ok p ∧
      ValidDigits ds ∧ ds.length = p.length := by
  obtain ⟨ds, hdec, henc, hvalid, hlen⟩ := decodeLoop_encodeLoop p.length p 0 (initAvailable p.length)
    (by omega) (length_initAvailable _) (by rw [take_initAvailable]; exact nodup_initAvailable _)
    hp.1 (fun x hx => by rw [take_initAvailable]; exact (mem_initAvailable _ x).2 (hp.2 x hx))
  refine ⟨ds, ?_, ?_, hvalid, hlen⟩
  · simp only [Main3.permutation_to_factoradic, validate_of_isPermutation p hp, hdec]
  · simp only [Main3.factoradic_to_permutation, hlen, henc]

/-- C2: for a permutation `p` of `0..L-1`, `L ≤ 256`, `permutation_to_factoradic`
of `main3.c` succeeds and `factoradic_to_permutation` applied to its digits
succeeds and returns `p`. -/
theorem encode_decode_permutation (p : List Int) (_hlen : p.length ≤ 256)
    (hp : IsPermutation p) :
    ∃ ds, Main3.permutation_to_factoradic p = Except.ok ds ∧
      Main3.factoradic_to_permutation ds = Except.ok p := by
  obtain ⟨ds, h1, h2, _, _⟩ := decode_valid p hp
  exact ⟨ds, h1, h2⟩

theorem encode_decode_permutation_witness :
    ∃ ds, Main3.permutation_to_factoradic [2, 0, 3, 1] = Except.ok ds ∧
      Main3.factoradic_to_permutation ds = Except.ok [2, 0, 3, 1] :=
  encode_decode_permutation [2, 0, 3, 1] (by decide) (by decide)

/-- C3: for a digit sequence `d` of length `L ≤ 256` with `0 ≤ d[i] < L - i`,
`factoradic_to_permutation` of `main3.c` succeeds, `permutation_to_factoradic`
accepts its output, and returns `d`. -/
theorem decode_encode_digits (d : List Int) (_hlen : d.length ≤ 256)
    (hd : ∀ i, i < d.length → 0 ≤ d.getD i 0 ∧ d.getD i 0 < (d.length : Int) - (i : Int)) :
    ∃ perm, Main3.factoradic_to_permutation d = Except.ok perm ∧
      Main3.permutation_to_factoradic perm = Except.ok d := by
  obtain ⟨perm, h1, h2, _, _⟩ := encode_valid d (validDigits_of_bounds d hd)
  exact ⟨perm, h1, h2⟩

theorem decode_encode_digits_witness :
    ∃ perm, Main3.factoradic_to_permutation [2, 2, 0, 0] = Except.ok perm ∧
      Main3.permutation_to_factoradic perm = Except.ok [2, 2, 0, 0] :=
  decode_encode_digits [2, 2, 0, 0] (by decide) (by decide)

/-- C5: for a digit sequence `d` of length `L` with `0 ≤ d[i] < L - i`,
`factoradic_to_permutation` of `main3.c` returns a sequence of length `L` in
which every integer of `0..L-1` occurs exactly once and nothing else occurs. -/
theorem factoradic_to_permutation_is_permutation (d : List Int)
    (hd : ∀ i, i < d.length → 0 ≤ d.getD i 0 ∧ d.getD i 0 < (d.length : Int) - (i : Int)) :
    ∃ perm, Main3.factoradic_to_permutation d = Except.ok perm ∧
      perm.length = d.length ∧
      (∀ v : Int, 0 ≤ v → v < (d.length : Int) → perm.count v = 1) ∧
      (∀ x ∈ perm, 0 ≤ x ∧ x < (d.length : Int)) ∧
      perm.Nodup := by
  obtain ⟨perm, h1, _, hperm, hlen⟩ := encode_valid d (validDigits_of_bounds d hd)
  have hnd : perm.Nodup := (List.Perm.nodup_iff hperm).2 (nodup_initAvailable _)
  refine ⟨perm, h1, hlen, fun v h0 h1 => ?_, fun x hx => ?_, hnd⟩
  · exact List.count_eq_one_of_mem hnd
      ((List.Perm.mem_iff hperm).2 ((mem_initAvailable _ v).2 ⟨h0, h1⟩))
  · exact (mem_initAvailable _ x).1 ((List.Perm.mem_iff hperm).1 hx)

theorem factoradic_to_permutation_is_permutation_witness :
    ∃ perm, Main3.factoradic_to_permutation [1, 2, 1, 0] = Except.ok perm ∧
      perm.length = [1, 2, 1, (0 : Int)].length ∧
      (∀ v : Int, 0 ≤ v → v < ([1, 2, 1, (0 : Int)].length : Int) → perm.count v = 1) ∧
      (∀ x ∈ perm, 0 ≤ x ∧ x < ([1, 2, 1, (0 : Int)].length : Int)) ∧
      perm.Nodup :=
  factoradic_to_permutation_is_permutation [1, 2, 1, 0] (by decide)

/-! ## Failure of the checked codec -/

/-- The checked encoding loop either runs to the end, and then every digit was
a valid index, or stops at the first digit that is not, naming it. -/
theorem encodeLoop_cases (length : Nat) :
    ∀ (ds : List Int) (i : Nat) (av : List Int), i + ds.length = length → av.length = length →
      (∃ perm, Main3.encodeLoop length ds i av = Except.ok perm ∧
        ∀ k, k < ds.length →
          0 ≤ ds.getD k 0 ∧ ds.getD k 0 < (length : Int) - ((i + k : Nat) : Int)) ∨
      (∃ k, k < ds.length ∧
        Main3.encodeLoop length ds i av =
          Except.error (Failure.digitOutOfBounds (ds.getD k 0) (i + k)) ∧
        (ds.getD k 0 < 0 ∨ ds.getD k 0 ≥ (length : Int) - ((i + k : Nat) : Int)) ∧
        ∀ j, j < k →
          0 ≤ ds.getD j 0 ∧ ds.getD j 0 < (length : Int) - ((i + j : Nat) : Int)) := by
  intro ds
  induction ds with
  | nil => intro i av _ _; exact Or.inl ⟨[], rfl, fun k hk => by simp at hk⟩
  | cons d ds ih =>
    intro i av hi hav
    simp only [List.length_cons] at hi
    by_cases hcheck : d < 0 ∨ d ≥ (length : Int) - (i : Int)
    · right
      refine ⟨0, by simp, ?_, ?_, fun j hj => by omega⟩
      · simp only [Main3.encodeLoop, if_pos hcheck, List.getD_cons_zero, Nat.add_zero]
      · simpa using hcheck
    · have hd0 : 0 ≤ d := by omega
      have hd1 : d < (length : Int) - (i : Int) := by omega
      have hkav : d.toNat < av.length := by omega
      have hstep : Main3.encodeLoop length (d :: ds) i av =
          match Main3.encodeLoop length ds (i + 1)
              (shiftLoop (length - i - 1 - d.toNat) d.toNat av) with
          | Except.error e => Except.error e
          | Except.ok perm => Except.ok (av[d.toNat] :: perm) := by
        simp only [Main3.encodeLoop, if_neg hcheck, List.getElem?_eq_getElem hkav]
      rcases ih (i + 1) (shiftLoop (length - i - 1 - d.toNat) d.toNat av) (by omega)
          (by rw [shiftLoop_length]; exact hav) with
        ⟨perm, hok, hall⟩ | ⟨k, hk, herr, hbad, hgood⟩
      · left
        refine ⟨av[d.toNat] :: perm, by rw [hstep, hok], fun k hk => ?_⟩
        cases k with
        | zero => simp only [List.getD_cons_zero]; omega
        | succ k =>
          have := hall k (by simpa using hk)
          simp only [List.getD_cons_succ]
          have e : i + 1 + k = i + (k + 1) := by omega
          rw [e] at this
          exact this
      · right
        have e : i + 1 + k = i + (k + 1) := by omega
        refine ⟨k + 1, by simpa using hk, ?_, ?_, fun j hj => ?_⟩
        · rw [hstep, herr, List.getD_cons_succ, e]
        · rw [List.getD_cons_succ, ← e]; exact hbad
        · cases j with
          | zero => simp only [List.getD_cons_zero]; omega
          | succ j =>
            have := hgood j (by omega)
            simp only [List.getD_cons_succ]
            have e' : i + 1 + j = i + (j + 1) := by omega
            rw [e'] at this
            exact this

/-- C6: `factoradic_to_permutation` of `main3.c` fails exactly when some digit
is not a valid index into the current available list (`d[i] < 0` or
`d[i] ≥ L - i`), and then reports the position and value of the first such
digit; `[3,0,0]` fails at position `0` with value `3`, `[1,1,0]` is accepted. -/
theorem factoradic_to_permutation_fails_iff (d : List Int) :
    ((∃ e, Main3.factoradic_to_permutation d = Except.error e) ↔
      ∃ i, i < d.length ∧ BadDigit d i) ∧
    (∀ e, Main3.factoradic_to_permutation d = Except.error e →
      ∃ i, i < d.length ∧ BadDigit d i ∧ (∀ j, j < i → ¬ BadDigit d j) ∧
        e = Failure.digitOutOfBounds (d.getD i 0) i) ∧
    Main3.factoradic_to_permutation [3, 0, 0] =
      Except.error (Failure.digitOutOfBounds 3 0) ∧
    Main3.factoradic_to_permutation [1, 1, 0] = Except.ok [1, 2, 0] := by
  refine ⟨?_, ?_, rfl, rfl⟩
  · rcases encodeLoop_cases d.length d 0 (initAvailable d.length) (by omega)
        (length_initAvailable _) with ⟨perm, hok, hall⟩ | ⟨k, hk, herr, hbad, _⟩
    · constructor
      · rintro ⟨e, he⟩
        rw [Main3.factoradic_to_permutation, hok] at he
        cases he
      · rintro ⟨i, hi, hb⟩
        have := hall i hi
        simp only [Nat.zero_add] at this
        unfold BadDigit at hb
        omega
    · constructor
      · intro _
        refine ⟨k, hk, ?_⟩
        simpa [BadDigit] using hbad
      · intro _
        exact ⟨_, herr⟩
  · intro e he
    rcases encodeLoop_cases d.length d 0 (initAvailable d.length) (by omega)
        (length_initAvailable _) with ⟨perm, hok, _⟩ | ⟨k, hk, herr, hbad, hgood⟩
    · rw [Main3.factoradic_to_permutation, hok] at he
      cases he
    · rw [Main3.factoradic_to_permutation, herr] at he
      simp only [Nat.zero_add] at he hbad hgood
      refine ⟨k, hk, hbad, fun j hj hb => ?_, ?_⟩
      · have := hgood j hj
        unfold BadDigit at hb
        omega
      · cases he; rfl

theorem offends_not_isPermutation (p : List Int) (k : Nat) (hk : k < p.length)
    (h : Offends p k) : ¬ IsPermutation p := by
  rintro ⟨hnd, hr⟩
  unfold Offends at h
  rw [List.getD_eq_getElem _ _ hk] at h
  have hin := hr p[k] (List.getElem_mem hk)
  rcases h with h | h | ⟨j, hj, hjk⟩
  · omega
  · omega
  · have hj' : j < p.length := by omega
    rw [List.getD_eq_getElem _ _ hj'] at hjk
    have := (List.Nodup.getElem_inj_iff hnd).1 hjk
    omega

/-- The decomposition the validation loop stops at, read by positions: the
stopping position offends and no earlier position does. -/
theorem first_offender (pre post : List Int) (x : Int)
    (hx : x < 0 ∨ x ≥ ((pre ++ x :: post).length : Int) ∨ x ∈ pre)
    (hpre : ∀ y ∈ pre, 0 ≤ y ∧ y < ((pre ++ x :: post).length : Int)) (hnd : pre.Nodup) :
    pre.length < (pre ++ x :: post).length ∧
      (pre ++ x :: post).getD pre.length 0 = x ∧
      Offends (pre ++ x :: post) pre.length ∧
      ∀ j, j < pre.length → ¬ Offends (pre ++ x :: post) j := by
  have hget : (pre ++ x :: post).getD pre.length 0 = x := by
    rw [List.getD_append_right _ _ _ _ (le_refl _)]; simp
  have hearly : ∀ j (hj : j < pre.length), (pre ++ x :: post).getD j 0 = pre[j] := by
    intro j hj
    rw [List.getD_append _ _ _ _ hj, List.getD_eq_getElem _ _ hj]
  refine ⟨by simp, hget, ?_, ?_⟩
  · unfold Offends
    rw [hget]
    rcases hx with h | h | h
    · exact Or.inl h
    · exact Or.inr (Or.inl h)
    · obtain ⟨j, hj, hjx⟩ := List.getElem_of_mem h
      exact Or.inr (Or.inr ⟨j, hj, by rw [hearly j hj, hjx]⟩)
  · intro j hj hoff
    unfold Offends at hoff
    rw [hearly j hj] at hoff
    have hin := hpre pre[j] (List.getElem_mem hj)
    rcases hoff with h | h | ⟨j', hj', h⟩
    · omega
    · omega
    · rw [hearly j' (by omega)] at h
      have := (List.Nodup.getElem_inj_iff hnd).1 h
      omega

/-- C7: `permutation_to_factoradic` of `main3.c` fails exactly when its input
is not a permutation of `0..L-1`, that is when some position holds a value
`< 0`, `≥ L` or equal to an earlier one; the failure is raised by the
validation loop, before any digit is computed, and names the value at the
lowest such position; `[0,0,1]` fails naming `0`. -/
theorem permutation_to_factoradic_fails_iff (p : List Int) :
    ((∃ e, Main3.permutation_to_factoradic p = Except.error e) ↔ ¬ IsPermutation p) ∧
    (¬ IsPermutation p ↔ ∃ k, k < p.length ∧ Offends p k) ∧
    (∀ e, Main3.permutation_to_factoradic p = Except.error e →
      Main3.validateLoop p.length p (List.replicate p.length false) = Except.error e ∧
      ∃ k, k < p.length ∧ Offends p k ∧ (∀ j, j < k → ¬ Offends p j) ∧
        e = Failure.invalidPermutation (p.getD k 0)) ∧
    Main3.permutation_to_factoradic [0, 0, 1] =
      Except.error (Failure.invalidPermutation 0) := by
  rcases validateLoop_cases p.length p _ [] (seenRep_replicate p.length) with
    ⟨_, hall, hnd⟩ | ⟨pre, x, post, hps, herr, hx, hpre, hprend⟩
  · have hip : IsPermutation p := ⟨hnd, fun y hy => ⟨(hall y hy).1, (hall y hy).2.1⟩⟩
    obtain ⟨ds, hds, _⟩ := decode_valid p hip
    refine ⟨?_, ?_, ?_, rfl⟩
    · constructor
      · rintro ⟨e, he⟩
        rw [hds] at he
        cases he
      · intro h
        exact absurd hip h
    · constructor
      · intro h
        exact absurd hip h
      · rintro ⟨k, hk, hoff⟩
        exact offends_not_isPermutation p k hk hoff
    · intro e he
      rw [hds] at he
      cases he
  · have hx' : x < 0 ∨ x ≥ ((pre ++ x :: post).length : Int) ∨ x ∈ pre := by
      rw [← hps]
      rcases hx with h | h | h | h
      · exact Or.inl h
      · exact Or.inr (Or.inl h)
      · simp at h
      · exact Or.inr (Or.inr h)
    have hpre' : ∀ y ∈ pre, 0 ≤ y ∧ y < ((pre ++ x :: post).length : Int) := by
      rw [← hps]
      exact fun y hy => ⟨(hpre y hy).1, (hpre y hy).2.1⟩
    obtain ⟨hk, hget, hoff, hfirst⟩ := first_offender pre post x hx' hpre' hprend
    rw [← hps] at hk hget hoff hfirst
    have hfail : Main3.permutation_to_factoradic p =
        Except.error (Failure.invalidPermutation x) := by
      simp only [Main3.permutation_to_factoradic, herr]
    have hnot : ¬ IsPermutation p := offends_not_isPermutation p pre.length hk hoff
    refine ⟨?_, ?_, ?_, rfl⟩
    · exact ⟨fun _ => hnot, fun _ => ⟨_, hfail⟩⟩
    · exact ⟨fun _ => ⟨pre.length, hk, hoff⟩, fun _ => hnot⟩
    · intro e he
      rw [hfail] at he
      cases he
      exact ⟨herr, pre.length, hk, hoff, hfirst, by rw [hget]⟩

/-! ## number → factoradic, fixed length -/

theorem warmupLoop_eq (fuel : Nat) :
    ∀ (k i : Nat), i + k ≤ fuel → i + k < UINT_SIZE → warmupLoop fuel k i = some () := by
  intro k
  induction k with
  | zero => intro i _ _; rfl
  | succ k ih =>
    intro i h1 h2
    have hfact := factorial_eq fuel i (by omega) (by omega)
    simp only [warmupLoop, hfact]
    exact ih (i + 1) (by omega) (by omega)

theorem fixedLoop_eq (fuel : Nat) :
    ∀ (length temp : Nat), length ≤ fuel → length ≤ 2147483648 → temp < length.factorial →
      ∃ ds, fixedLoop fuel length temp = some ds ∧ ds.length = length ∧ ValidDigits ds ∧
        factoradicValue ds = (temp : Int) := by
  intro length
  induction length with
  | zero =>
    intro temp _ _ ht
    have : temp = 0 := by simpa using ht
    subst this
    exact ⟨[], rfl, rfl, trivial, by simp [factoradicValue]⟩
  | succ i ih =>
    intro temp hf hi ht
    have hfact : factorial fuel i = some i.factorial :=
      factorial_eq fuel i (by unfold UINT_SIZE; omega) (by omega)
    have hpos : 0 < i.factorial := Nat.factorial_pos _
    have hr : temp % i.factorial < i.factorial := Nat.mod_lt _ hpos
    have hq : temp / i.factorial < i + 1 := by
      rw [Nat.div_lt_iff_lt_mul hpos]
      have : (i + 1).factorial = (i + 1) * i.factorial := Nat.factorial_succ i
      omega
    obtain ⟨ds, hds, hlen, hvalid, hval⟩ := ih (temp % i.factorial) (by omega) (by omega) hr
    have hcast : int_of_ulong (temp / i.factorial) = ((temp / i.factorial : Nat) : Int) :=
      int_of_ulong_small _ (by omega)
    refine ⟨((temp / i.factorial : Nat) : Int) :: ds, ?_, ?_, ?_, ?_⟩
    · simp only [fixedLoop, hfact, hds, hcast]
    · simp [hlen]
    · refine ⟨by positivity, ?_, hvalid⟩
      rw [hlen]
      exact_mod_cast (by omega : temp / i.factorial ≤ i)
    · simp only [factoradicValue, hlen, hval]
      have h2 : temp / i.factorial * i.factorial + temp % i.factorial = temp := by
        rw [Nat.mul_comm]; exact Nat.div_add_mod temp i.factorial
      exact_mod_cast h2

/-- For `n < L!` the fixed-length encoder of `main5.c` returns `L` valid digits
of value `n`. -/
theorem number_to_factoradic_fixed_eq (fuel n length : Nat) (hf : length ≤ fuel)
    (hlen : length ≤ 2147483648) (hn : n < length.factorial) :
    ∃ ds, Main5.number_to_factoradic fuel n length = some ds ∧ ds.length = length ∧
      ValidDigits ds ∧ factoradicValue ds = (n : Int) := by
  obtain ⟨ds, hds, h⟩ := fixedLoop_eq fuel length n hf hlen hn
  refine ⟨ds, ?_, h⟩
  have hw : warmupLoop fuel (length - 1) 1 = some () := by
    rcases Nat.eq_zero_or_pos length with h0 | h0
    · subst h0; rfl
    · exact warmupLoop_eq fuel (length - 1) 1 (by omega) (by unfold UINT_SIZE; omega)
  simp only [Main5.number_to_factoradic, hw, hds]

/-! ## The unchecked codec of `main5.c` on the inputs the checked one accepts -/

theorem main5_encodeLoop_of_main3 (length : Nat) :
    ∀ (ds : List Int) (i : Nat) (av perm : List Int),
      Main3.encodeLoop length ds i av = Except.ok perm →
      Main5.encodeLoop length ds i av = Except.ok perm := by
  intro ds
  induction ds with
  | nil => intro i av perm h; exact h
  | cons d ds ih =>
    intro i av perm h
    simp only [Main3.encodeLoop] at h
    split at h
    · cases h
    · rename_i hcheck
      have hd0 : ¬ d < 0 := fun h' => hcheck (Or.inl h')
      simp only [Main5.encodeLoop, if_neg hd0]
      split at h
      · cases h
      · rename_i v hv
        split at h
        · cases h
        · rename_i perm' hrec
          simp only [hv, ih _ _ _ hrec]
          exact h

theorem main5_encode_of_main3 (d perm : List Int) (hlen : d.length ≤ 256)
    (h : Main3.factoradic_to_permutation d = Except.ok perm) :
    Main5.factoradic_to_permutation d = Except.ok perm := by
  have hcap : ¬ d.length > MAX_DIGITS := by unfold MAX_DIGITS; omega
  simp only [Main5.factoradic_to_permutation, if_neg hcap]
  exact main5_encodeLoop_of_main3 _ _ _ _ _ h

theorem main5_decode_of_main3 (p ds : List Int) (hlen : p.length ≤ 256)
    (h : Main3.permutation_to_factoradic p = Except.ok ds) :
    Main5.permutation_to_factoradic p = Except.ok ds := by
  have hcap : ¬ p.length > MAX_DIGITS := by unfold MAX_DIGITS; omega
  simp only [Main5.permutation_to_factoradic, if_neg hcap]
  simp only [Main3.permutation_to_factoradic] at h
  split at h
  · cases h
  · exact h

/-- C4: for `1 ≤ L ≤ 256` and `n < L!`, mode 5 of `main5.c`
(`number_to_factoradic` then `factoradic_to_permutation`) returns a
permutation from which `factoradic_to_number(permutation_to_factoradic(·))`
returns `n`. -/
theorem number_permutation_round_trip (fuel n L : Nat) (hL1 : 1 ≤ L) (hL2 : L ≤ 256)
    (hn : n < L.factorial) (hfuel : L ≤ fuel) :
    ∃ perm, Main5.number_to_permutation fuel n L = some (Except.ok perm) ∧
      Main5.permutation_to_number fuel perm = some (Except.ok n) := by
  have hL0 : ¬ L = 0 := by omega
  obtain ⟨ds, hds, hlen, hvalid, hval⟩ :=
    number_to_factoradic_fixed_eq fuel n L hfuel (by omega) hn
  obtain ⟨perm, henc, hdec, _, hplen⟩ := encode_valid ds hvalid
  have henc5 := main5_encode_of_main3 ds perm (by omega) henc
  have hdec5 := main5_decode_of_main3 perm ds (by omega) hdec
  have hbound : ∀ x ∈ ds, 0 ≤ x ∧ x < 2147483648 := by
    intro x hx
    obtain ⟨p, hp, rfl⟩ := List.getElem_of_mem hx
    have := (validDigits_iff ds).1 hvalid p hp
    rw [List.getD_eq_getElem _ _ hp] at this
    omega
  obtain ⟨r, hr, hrv⟩ := sumLoop_eq fuel ds.length (by omega) (by omega) ds 0 0 (by omega) hbound
  have hrn : r = n := by
    rw [hval] at hrv
    exact_mod_cast (by simpa using hrv : (r : Int) = (n : Int))
  refine ⟨perm, ?_, ?_⟩
  · simp only [Main5.number_to_permutation, if_neg hL0, hds, henc5]
  · simp only [Main5.permutation_to_number, hdec5, Main5.factoradic_to_number, hr, hrn]

theorem number_permutation_round_trip_witness :
    ∃ perm, Main5.number_to_permutation 4 17 4 = some (Except.ok perm) ∧
      Main5.permutation_to_number 4 perm = some (Except.ok 17) :=
  number_permutation_round_trip 4 17 4 (by decide) (by decide) (by decide) (by decide)

/-! ## What the loops return when they return -/

theorem factorialLoop_large (n : Nat) (hn : UINT_SIZE - 1 ≤ n) (fuel : Nat) :
    ∀ (i result : Nat), i < UINT_SIZE → factorialLoop n fuel i result = none := by
  induction fuel with
  | zero => intro i result _; rfl
  | succ f ih =>
    intro i result hi
    have h1 : i ≤ n := by omega
    simp only [factorialLoop, h1, if_true]
    exact ih _ _ (Nat.mod_lt _ (by decide))

theorem factorialLoop_some (n : Nat) (hn : n + 1 < UINT_SIZE) (fuel : Nat) :
    ∀ (j r : Nat), j ≤ n → factorialLoop n fuel (j + 1) j.factorial = some r →
      r = n.factorial := by
  induction fuel with
  | zero => intro j r _ h; simp [factorialLoop] at h
  | succ f ih =>
    intro j r hj h
    simp only [factorialLoop] at h
    by_cases h1 : j + 1 ≤ n
    · have h2 : (j + 1 + 1) % UINT_SIZE = j + 1 + 1 := Nat.mod_eq_of_lt (by omega)
      have h3 : j.factorial * (j + 1) = (j + 1).factorial := by
        rw [Nat.factorial_succ, Nat.mul_comm]
      rw [if_pos h1, h2, h3] at h
      exact ih (j + 1) r h1 h
    · rw [if_neg h1] at h
      have : j = n := by omega
      subst this
      exact (Option.some.inj h).symm

/-- When `factorial` returns, its argument is below `UINT_MAX` and the result
is the factorial of the argument. -/
theorem factorial_some (fuel n r : Nat) (h : factorial fuel n = some r) :
    n + 1 < UINT_SIZE ∧ r = n.factorial := by
  by_cases hn : n + 1 < UINT_SIZE
  · refine ⟨hn, ?_⟩
    rcases Nat.eq_zero_or_pos n with h0 | h0
    · subst h0
      cases fuel with
      | zero => simp [factorial, factorialLoop] at h
      | succ f =>
        simp [factorial, factorialLoop] at h
        simp [h]
    · exact factorialLoop_some n hn fuel 1 r h0 h
  · have := factorialLoop_large n (by omega) fuel 2 1 (by decide)
    rw [factorial, this] at h
    cases h

/-- When the search loop returns `i'`, the factorials of the indices it passed
are at most `number` and `i'!` exceeds `number`. -/
theorem searchLoop_some (fuel number : Nat) :
    ∀ (k i i' : Nat), i + 1 < UINT_SIZE →
      searchLoop fuel number k i i.factorial = some i' →
      i ≤ i' ∧ i' + 1 < UINT_SIZE ∧ number < i'.factorial ∧
        ∀ j, i ≤ j → j < i' → j.factorial ≤ number := by
  intro k
  induction k with
  | zero => intro i i' _ h; simp [searchLoop] at h
  | succ k ih =>
    intro i i' hi h
    simp only [searchLoop] at h
    have hmod : (i + 1) % UINT_SIZE = i + 1 := Nat.mod_eq_of_lt hi
    by_cases h1 : i.factorial ≤ number
    · rw [if_pos h1, hmod] at h
      cases hfact : factorial fuel (i + 1) with
      | none => rw [hfact] at h; cases h
      | some fact =>
        rw [hfact] at h
        obtain ⟨hi2, rfl⟩ := factorial_some fuel (i + 1) fact hfact
        obtain ⟨a, b, c, d⟩ := ih (i + 1) i' hi2 h
        refine ⟨by omega, b, c, fun j hj hj' => ?_⟩
        by_cases hji : j = i
        · subst hji; exact h1
        · exact d j (by omega) hj'
    · rw [if_neg h1] at h
      have : i = i' := Option.some.inj h
      subst this
      exact ⟨le_refl _, hi, by omega, fun j hj hj' => by omega⟩

theorem int_of_ulong_le (q : Nat) (h : q < UINT_SIZE) : int_of_ulong q ≤ (q : Int) := by
  have h1 : q % UINT_SIZE = q := Nat.mod_eq_of_lt h
  unfold int_of_ulong
  rw [h1]
  split <;> omega

/-- When the digit loop returns, it has produced `i + 1` digits, none above
its place. -/
theorem digitLoop_some (fuel : Nat) :
    ∀ (i number : Nat) (ds : List Int), number < (i + 1).factorial →
      digitLoop fuel i number = some ds →
      ds.length = i + 1 ∧
        ∀ p, p < ds.length → ds.getD p 0 ≤ (ds.length : Int) - 1 - (p : Int) := by
  intro i
  induction i with
  | zero =>
    intro number ds hn h
    have : number = 0 := by simpa using hn
    subst this
    simp only [digitLoop, Option.some.injEq] at h
    subst h
    refine ⟨rfl, fun p hp => ?_⟩
    have : p = 0 := by simpa using hp
    subst this
    simp [int_of_ulong]
  | succ i ih =>
    intro number ds hn h
    simp only [digitLoop] at h
    cases hfact : factorial fuel (i + 1) with
    | none => rw [hfact] at h; cases h
    | some fact =>
      simp only [hfact] at h
      obtain ⟨hi2, rfl⟩ := factorial_some fuel (i + 1) fact hfact
      have hpos : 0 < (i + 1).factorial := Nat.factorial_pos _
      cases hrec : digitLoop fuel i (number % (i + 1).factorial) with
      | none => rw [hrec] at h; cases h
      | some ds' =>
        simp only [hrec, Option.some.injEq] at h
        subst h
        obtain ⟨hlen, hb⟩ := ih _ ds' (Nat.mod_lt _ hpos) hrec
        have hq : number / (i + 1).factorial < i + 2 := by
          rw [Nat.div_lt_iff_lt_mul hpos]
          have : (i + 1 + 1).factorial = (i + 2) * (i + 1).factorial := Nat.factorial_succ (i + 1)
          omega
        have hq' := int_of_ulong_le (number / (i + 1).factorial) (by omega)
        refine ⟨by simp [hlen], fun p hp => ?_⟩
        cases p with
        | zero =>
          simp only [List.getD_cons_zero, List.length_cons, hlen]
          push_cast
          omega
        | succ p =>
          have := hb p (by simpa using hp)
          simp only [List.getD_cons_succ, List.length_cons]
          push_cast
          omega

/-- When `dec_to_factoradic` returns, no digit is above its place. -/
theorem dec_to_factoradic_some (fuel number : Nat) (ds : List Int)
    (h : Main3.dec_to_factoradic fuel number = some ds) :
    ∀ p, p < ds.length → ds.getD p 0 ≤ (ds.length : Int) - 1 - (p : Int) := by
  simp only [Main3.dec_to_factoradic] at h
  cases h0 : factorial fuel 0 with
  | none => rw [h0] at h; cases h
  | some fact =>
    simp only [h0] at h
    obtain ⟨_, rfl⟩ := factorial_some fuel 0 fact h0
    cases hs : searchLoop fuel number fuel 0 (Nat.factorial 0) with
    | none => rw [hs] at h; cases h
    | some i' =>
      simp only [hs] at h
      obtain ⟨_, hi', hlt, _⟩ := searchLoop_some fuel number fuel 0 i' (by decide) hs
      rcases Nat.eq_zero_or_pos i' with hz | hz
      · subst hz
        have : (0 + UINT_SIZE - 1) % UINT_SIZE = UINT_SIZE - 1 := by decide
        rw [this, digitLoop_uint_max] at h
        cases h
      · have hdec : (i' + UINT_SIZE - 1) % UINT_SIZE = i' - 1 := by
          unfold UINT_SIZE at hi' ⊢; omega
        rw [hdec] at h
        have hlt' : number < (i' - 1 + 1).factorial := by
          have : i' - 1 + 1 = i' := by omega
          rw [this]; exact hlt
        exact (digitLoop_some fuel (i' - 1) number ds hlt' h).2

/-! ## factorial and the capacity test -/

/-- C14 (as stated, at `i = 4294967295`): `factorial` returns nothing on
`UINT_MAX`, whatever the fuel, so `factorial(i) = i · factorial(i-1)` does not
hold for every `i ≥ 1` of the argument type. -/
theorem factorial_uint_max_no_result :
    ¬ ∃ fuel r, factorial fuel 4294967295 = some r := by
  rintro ⟨fuel, r, h⟩
  have := factorial_uint_max fuel
  have e : UINT_SIZE - 1 = 4294967295 := by decide
  rw [e, h] at this
  cases this

/-- C14 (amended): `factorial(0) = 1` and, for every `i` with
`1 ≤ i ≤ 4294967294` (in particular up to the design limit 256),
`factorial(i)` returns `i!`, which is `i · factorial(i-1)`. -/
theorem factorial_recurrence (fuel i : Nat) (hi1 : 1 ≤ i) (hi2 : i ≤ 4294967294)
    (hfuel : i < fuel) :
    factorial fuel 0 = some 1 ∧
    ∃ r r', factorial fuel i = some r ∧ factorial fuel (i - 1) = some r' ∧
      r = i * r' ∧ r = i.factorial := by
  refine ⟨factorial_eq fuel 0 (by decide) (by omega), i.factorial, (i - 1).factorial,
    factorial_eq fuel i (by unfold UINT_SIZE; omega) hfuel,
    factorial_eq fuel (i - 1) (by unfold UINT_SIZE; omega) (by omega), ?_, rfl⟩
  obtain ⟨k, rfl⟩ : ∃ k, i = k + 1 := ⟨i - 1, by omega⟩
  simp [Nat.factorial_succ]

theorem factorial_recurrence_witness :
    factorial 257 0 = some 1 ∧
    ∃ r r', factorial 257 256 = some r ∧ factorial 257 (256 - 1) = some r' ∧
      r = 256 * r' ∧ r = Nat.factorial 256 :=
  factorial_recurrence 257 256 (by decide) (by decide) (by decide)

/-- Below `256!` the search loop stops at an index of at most `256`. -/
theorem searchLoop_small (fuel number i' : Nat) (hn : number < Nat.factorial 256)
    (h : searchLoop fuel number fuel 0 (Nat.factorial 0) = some i') : i' ≤ 256 := by
  obtain ⟨_, _, _, hle⟩ := searchLoop_some fuel number fuel 0 i' (by decide) h
  by_contra hc
  have h1 := hle 256 (by omega) (by omega)
  omega

/-- For `256! ≤ n < 4294967294!` the search loop of `number_to_factoradic`
stops at an index above `256`, given fuel for it. -/
theorem searchLoop_large (fuel n : Nat) (hn1 : Nat.factorial 256 ≤ n)
    (hn2 : n < Nat.factorial 4294967294) (hfuel : n + 2 ≤ fuel) :
    ∃ m, 256 ≤ m ∧ m + 2 < UINT_SIZE ∧ searchLoop fuel n fuel 0 1 = some (m + 1) := by
  have hP0 : (0 : Nat).factorial ≤ n := le_trans (Nat.factorial_le (Nat.zero_le 256)) hn1
  have hgreatest : ∀ j, j.factorial ≤ n → j ≤ Nat.findGreatest (fun i => i.factorial ≤ n) n :=
    fun j hj => Nat.le_findGreatest (le_trans (Nat.self_le_factorial j) hj) hj
  have hmn : Nat.findGreatest (fun i => i.factorial ≤ n) n ≤ n := Nat.findGreatest_le n
  generalize hm : Nat.findGreatest (fun i => i.factorial ≤ n) n = m at hgreatest hmn
  have hm1 : m.factorial ≤ n := by
    have := Nat.findGreatest_spec (P := fun i => i.factorial ≤ n) (Nat.zero_le n) hP0
    rwa [hm] at this
  have hm2 : n < (m + 1).factorial := by
    by_contra h
    have := hgreatest (m + 1) (by omega)
    omega
  have hm3 : 256 ≤ m := hgreatest 256 hn1
  have hm4 : m < 4294967294 := by
    by_contra h
    have := Nat.factorial_le (show 4294967294 ≤ m by omega)
    omega
  have hle : ∀ j, j ≤ m → j.factorial ≤ n := fun j hj => le_trans (Nat.factorial_le hj) hm1
  have hsearch := searchLoop_eq fuel n m (by unfold UINT_SIZE; omega) (by omega) hle hm2
    (m + 1) fuel 0 (by omega) (by omega)
  exact ⟨m, hm3, by unfold UINT_SIZE; omega, by simpa using hsearch⟩

/-- At and above `4294967294!` the search loop never stops: it runs out of
fuel or reaches `factorial(fact, UINT_MAX)`. -/
theorem searchLoop_huge (fuel n : Nat) (hn : Nat.factorial 4294967294 ≤ n) :
    ∀ (k i : Nat), i ≤ 4294967294 → searchLoop fuel n k i i.factorial = none := by
  intro k
  induction k with
  | zero => intro i _; rfl
  | succ k ih =>
    intro i hi
    have h1 : i.factorial ≤ n := le_trans (Nat.factorial_le hi) hn
    have hmod : (i + 1) % UINT_SIZE = i + 1 := Nat.mod_eq_of_lt (by unfold UINT_SIZE; omega)
    simp only [searchLoop, if_pos h1, hmod]
    cases hfact : factorial fuel (i + 1) with
    | none => rfl
    | some fact =>
      obtain ⟨hi2, rfl⟩ := factorial_some fuel (i + 1) fact hfact
      exact ih (i + 1) (by unfold UINT_SIZE at hi2; omega)

/-- C11 (as stated, at `n = 4294967294!`): `number_to_factoradic` of
`factoradic.c` returns nothing, neither the capacity error nor digits,
whatever the fuel, although `n ≥ 256!`. -/
theorem number_to_factoradic_huge_no_result :
    Nat.factorial 256 ≤ Nat.factorial 4294967294 ∧
    ¬ ∃ fuel r, FactoradicC.number_to_factoradic fuel (Nat.factorial 4294967294) = some r := by
  refine ⟨Nat.factorial_le (by decide), ?_⟩
  rintro ⟨fuel, r, h⟩
  simp only [FactoradicC.number_to_factoradic] at h
  cases h0 : factorial fuel 0 with
  | none => simp [h0] at h
  | some fact =>
    obtain ⟨_, rfl⟩ := factorial_some fuel 0 fact h0
    have hs := searchLoop_huge fuel (Nat.factorial 4294967294) (le_refl _) fuel 0 (by decide)
    rw [Nat.factorial_zero] at hs h0
    simp [h0, hs] at h

/-- C11 (amended): for `256! ≤ n < 4294967294!`, `number_to_factoradic` of
`factoradic.c` stops with the capacity error, before the digit loop, for
every fuel from `n + 2` on; for `n < 256!` it never takes the capacity-error
branch, whatever the fuel. -/
theorem number_to_factoradic_capacity :
    (∀ n fuel, Nat.factorial 256 ≤ n → n < Nat.factorial 4294967294 → n + 2 ≤ fuel →
      FactoradicC.number_to_factoradic fuel n = some (Except.error Failure.capacityExceeded)) ∧
    (∀ n fuel, n < Nat.factorial 256 →
      FactoradicC.number_to_factoradic fuel n ≠ some (Except.error Failure.capacityExceeded)) := by
  constructor
  · intro n fuel hn1 hn2 hfuel
    obtain ⟨m, hm, hmu, hs⟩ := searchLoop_large fuel n hn1 hn2 hfuel
    have h0 : factorial fuel 0 = some 1 := factorial_eq fuel 0 (by decide) (by omega)
    have hdec : (m + 1 + UINT_SIZE - 1) % UINT_SIZE = m := by unfold UINT_SIZE at hmu ⊢; omega
    have hcap : (m + 1) % UINT_SIZE > MAX_DIGITS := by
      unfold UINT_SIZE MAX_DIGITS at *; omega
    simp only [FactoradicC.number_to_factoradic, h0, hs, hdec, if_pos hcap]
  · intro n fuel hn h
    simp only [FactoradicC.number_to_factoradic] at h
    cases h0 : factorial fuel 0 with
    | none => simp [h0] at h
    | some fact =>
      obtain ⟨_, rfl⟩ := factorial_some fuel 0 fact h0
      cases hs : searchLoop fuel n fuel 0 (Nat.factorial 0) with
      | none =>
        rw [Nat.factorial_zero] at hs h0
        simp [h0, hs] at h
      | some i' =>
        have hi' := searchLoop_small fuel n i' hn hs
        have hcap : ¬ ((i' + UINT_SIZE - 1) % UINT_SIZE + 1) % UINT_SIZE > MAX_DIGITS := by
          unfold UINT_SIZE MAX_DIGITS; omega
        simp only [h0, hs, if_neg hcap] at h
        cases hd : digitLoop fuel ((i' + UINT_SIZE - 1) % UINT_SIZE) n with
        | none => simp [hd] at h
        | some ds => simp [hd] at h

theorem number_to_factoradic_capacity_witness :
    FactoradicC.number_to_factoradic (Nat.factorial 256 + 2) (Nat.factorial 256) =
      some (Except.error Failure.capacityExceeded) ∧
    FactoradicC.number_to_factoradic 258 23 ≠ some (Except.error Failure.capacityExceeded) :=
  ⟨number_to_factoradic_capacity.1 (Nat.factorial 256) (Nat.factorial 256 + 2) (le_refl _)
      ((Nat.factorial_lt (by decide)).2 (by decide)) (le_refl _),
    number_to_factoradic_capacity.2 23 258
      (lt_of_lt_of_le (by decide) (Nat.self_le_factorial 256))⟩

/-! ## number → factoradic, fixed length: any number -/

/-- One round of the fixed-length loop on any number: the leading digit is the
stored quotient by `i!`, the remaining `i` digits are the valid digits of the
remainder. -/
theorem fixedLoop_any (fuel i temp : Nat) (hf : i + 1 ≤ fuel) (hi : i + 1 ≤ 2147483648) :
    ∃ ds, fixedLoop fuel (i + 1) temp = some (int_of_ulong (temp / i.factorial) :: ds) ∧
      ds.length = i ∧ ValidDigits ds ∧
      factoradicValue ds = ((temp % i.factorial : Nat) : Int) := by
  have hfact : factorial fuel i = some i.factorial :=
    factorial_eq fuel i (by unfold UINT_SIZE; omega) (by omega)
  obtain ⟨ds, hds, h⟩ := fixedLoop_eq fuel i (temp % i.factorial) (by omega) (by omega)
    (Nat.mod_lt _ (Nat.factorial_pos _))
  exact ⟨ds, by simp only [fixedLoop, hfact, hds], h⟩

theorem warmupLoop_length (fuel length : Nat) (hf : length ≤ fuel) (hlen : length ≤ 2147483648) :
    warmupLoop fuel (length - 1) 1 = some () := by
  rcases Nat.eq_zero_or_pos length with h0 | h0
  · subst h0; rfl
  · exact warmupLoop_eq fuel (length - 1) 1 (by omega) (by unfold UINT_SIZE; omega)

/-- C12 (as stated, at `L = 2`, `n = 2`): although `n ≥ L!`, the fixed-length
`number_to_factoradic` of `main5.c` does not fail; it returns the two digits
`[2, 0]`. -/
theorem number_to_factoradic_fixed_no_range_error :
    Nat.factorial 2 ≤ 2 ∧ Main5.number_to_factoradic 2 2 2 = some [2, 0] := by
  decide

/-- C12 (amended): for every length `1 ≤ L < 2^31` and every `n ≥ L!`, the
fixed-length `number_to_factoradic` of `main5.c` reports no error: it returns
`L` digits, the first of which is the stored quotient of `n` by `(L-1)!`;
when that quotient is below `2^31` the first digit is at least `L`, so the
sequence is not a valid factoradic sequence of length `L`. -/
theorem number_to_factoradic_fixed_out_of_range (fuel n L : Nat) (hL1 : 1 ≤ L)
    (hL2 : L < 2147483648) (hn : L.factorial ≤ n) (hfuel : L ≤ fuel) :
    ∃ ds, Main5.number_to_factoradic fuel n L = some ds ∧ ds.length = L ∧
      ds.getD 0 0 = int_of_ulong (n / (L - 1).factorial) ∧
      (n / (L - 1).factorial < 2147483648 → (L : Int) ≤ ds.getD 0 0 ∧ ¬ ValidDigits ds) := by
  obtain ⟨i, rfl⟩ : ∃ i, L = i + 1 := ⟨L - 1, by omega⟩
  obtain ⟨ds, hds, hlen, _, _⟩ := fixedLoop_any fuel i n hfuel (by omega)
  have hw := warmupLoop_length fuel (i + 1) hfuel (by omega)
  have he : i + 1 - 1 = i := by omega
  rw [he] at hw ⊢
  refine ⟨int_of_ulong (n / i.factorial) :: ds, ?_, by simp [hlen], rfl, ?_⟩
  · simp only [Main5.number_to_factoradic, he, hw, hds]
  intro hq
  have hcast := int_of_ulong_small _ hq
  have hge : i + 1 ≤ n / i.factorial := by
    rw [Nat.le_div_iff_mul_le (Nat.factorial_pos _)]
    have : (i + 1).factorial = (i + 1) * i.factorial := Nat.factorial_succ i
    omega
  simp only [List.getD_cons_zero, hcast]
  refine ⟨by exact_mod_cast hge, ?_⟩
  rintro ⟨_, h2, _⟩
  rw [hlen] at h2
  have : n / i.factorial ≤ i := by exact_mod_cast h2
  omega

theorem number_to_factoradic_fixed_out_of_range_witness :
    ∃ ds, Main5.number_to_factoradic 3 7 3 = some ds ∧ ds.length = 3 ∧
      ds.getD 0 0 = int_of_ulong (7 / (3 - 1).factorial) ∧
      (7 / (3 - 1).factorial < 2147483648 → ((3 : Nat) : Int) ≤ ds.getD 0 0 ∧ ¬ ValidDigits ds) :=
  number_to_factoradic_fixed_out_of_range 3 7 3 (by decide) (by decide) (by decide) (by decide)

/-- C13: for `L ≥ 1` and `n < L!`, the fixed-length `number_to_factoradic` of
`main5.c` writes exactly `L` digits with `0 ≤ d[p] ≤ L-1-p` and
`Σ d[p] · (L-1-p)! = n`, and `factoradic_to_permutation` of `main3.c`
accepts them. -/
theorem number_to_factoradic_fixed_valid (fuel n L : Nat) (_hL1 : 1 ≤ L)
    (hL2 : L < 2147483648) (hn : n < L.factorial) (hfuel : L ≤ fuel) :
    ∃ ds, Main5.number_to_factoradic fuel n L = some ds ∧ ds.length = L ∧
      (∀ p, p < ds.length → 0 ≤ ds.getD p 0 ∧ ds.getD p 0 ≤ (ds.length : Int) - 1 - (p : Int)) ∧
      ∑ p in Finset.range ds.length,
        ds.getD p 0 * ((ds.length - 1 - p).factorial : Int) = (n : Int) ∧
      ∃ perm, Main3.factoradic_to_permutation ds = Except.ok perm := by
  obtain ⟨ds, hds, hlen, hvalid, hval⟩ := number_to_factoradic_fixed_eq fuel n L hfuel (by omega) hn
  obtain ⟨perm, hperm, _⟩ := encode_valid ds hvalid
  exact ⟨ds, hds, hlen, (validDigits_iff ds).1 hvalid, by rw [← factoradicValue_eq_sum, hval],
    perm, hperm⟩

theorem number_to_factoradic_fixed_valid_witness :
    ∃ ds, Main5.number_to_factoradic 4 17 4 = some ds ∧ ds.length = 4 ∧
      (∀ p, p < ds.length → 0 ≤ ds.getD p 0 ∧ ds.getD p 0 ≤ (ds.length : Int) - 1 - (p : Int)) ∧
      ∑ p in Finset.range ds.length,
        ds.getD p 0 * ((ds.length - 1 - p).factorial : Int) = ((17 : Nat) : Int) ∧
      ∃ perm, Main3.factoradic_to_permutation ds = Except.ok perm :=
  number_to_factoradic_fixed_valid 4 17 4 (by decide) (by decide) (by decide) (by decide)

/-! ## The fixed-length codec is a bijection; padding -/

theorem factoradicValue_bounds : ∀ (ds : List Int), ValidDigits ds →
    0 ≤ factoradicValue ds ∧ factoradicValue ds < (ds.length.factorial : Int) := by
  intro ds
  induction ds with
  | nil => intro _; simp [factoradicValue]
  | cons d ds ih =>
    rintro ⟨h0, h1, hv⟩
    obtain ⟨a, b⟩ := ih hv
    have hF : (0 : Int) ≤ (ds.length.factorial : Int) := by positivity
    have hsucc : (((ds.length + 1).factorial : Nat) : Int) =
        ((ds.length : Int) + 1) * (ds.length.factorial : Int) := by
      rw [Nat.factorial_succ]; push_cast; ring
    simp only [factoradicValue, List.length_cons, hsucc]
    constructor
    · have := mul_nonneg h0 hF
      omega
    · have := mul_le_mul_of_nonneg_right h1 hF
      nlinarith

/-- The fixed-length loop, run on the value of a valid digit sequence of the
same length, writes that sequence. -/
theorem fixedLoop_of_valid (fuel : Nat) : ∀ (ds : List Int) (r : Nat), ValidDigits ds →
    (r : Int) = factoradicValue ds → ds.length ≤ fuel → ds.length ≤ 2147483648 →
    fixedLoop fuel ds.length r = some ds := by
  intro ds
  induction ds with
  | nil => intro r _ _ _ _; rfl
  | cons d ds ih =>
    rintro r ⟨h0, h1, hv⟩ hr hf hl
    simp only [List.length_cons] at hf hl
    obtain ⟨a, b⟩ := factoradicValue_bounds ds hv
    obtain ⟨k, rfl⟩ : ∃ k : Nat, d = (k : Int) := ⟨d.toNat, (Int.toNat_of_nonneg h0).symm⟩
    obtain ⟨v, hvn⟩ : ∃ v : Nat, factoradicValue ds = (v : Int) :=
      ⟨(factoradicValue ds).toNat, (Int.toNat_of_nonneg a).symm⟩
    have hk : k ≤ ds.length := by exact_mod_cast h1
    have hvlt : v < ds.length.factorial := by rw [hvn] at b; exact_mod_cast b
    have hreq : r = k * ds.length.factorial + v := by
      simp only [factoradicValue, hvn] at hr
      exact_mod_cast hr
    have hpos : 0 < ds.length.factorial := Nat.factorial_pos _
    have hq : r / ds.length.factorial = k := by
      rw [hreq, Nat.add_comm, Nat.add_mul_div_right _ _ hpos, Nat.div_eq_of_lt hvlt]
      omega
    have hm : r % ds.length.factorial = v := by
      rw [hreq, Nat.add_comm, Nat.add_mul_mod_self_right, Nat.mod_eq_of_lt hvlt]
    have hfact : factorial fuel ds.length = some ds.length.factorial :=
      factorial_eq fuel ds.length (by unfold UINT_SIZE; omega) (by omega)
    have hrec := ih v hv hvn.symm (by omega) (by omega)
    have hcast : int_of_ulong k = (k : Int) := int_of_ulong_small k (by omega)
    simp only [List.length_cons, fixedLoop, hfact, hq, hm, hrec, hcast]

/-- C15: for a digit sequence `d` of length `L ≤ 256` with `0 ≤ d[p] ≤ L-1-p`,
`factoradic_to_number(d)` is below `L!` and the fixed-length
`number_to_factoradic` of it, with length `L`, is `d` again. -/
theorem fixed_codec_left_inverse (fuel : Nat) (d : List Int) (hlen : d.length ≤ 256)
    (hd : ∀ p, p < d.length → 0 ≤ d.getD p 0 ∧ d.getD p 0 ≤ (d.length : Int) - 1 - (p : Int))
    (hfuel : d.length ≤ fuel) :
    ∃ r, Main5.factoradic_to_number fuel d = some r ∧ r < d.length.factorial ∧
      Main5.number_to_factoradic fuel r d.length = some d := by
  have hvalid : ValidDigits d := (validDigits_iff d).2 hd
  have hbound : ∀ x ∈ d, 0 ≤ x ∧ x < 2147483648 := by
    intro x hx
    obtain ⟨p, hp, rfl⟩ := List.getElem_of_mem hx
    have := hd p hp
    rw [List.getD_eq_getElem _ _ hp] at this
    omega
  obtain ⟨r, hr, hrv⟩ := sumLoop_eq fuel d.length (by omega) hfuel d 0 0 (by omega) hbound
  have hrv' : (r : Int) = factoradicValue d := by simpa using hrv
  obtain ⟨_, hlt⟩ := factoradicValue_bounds d hvalid
  refine ⟨r, hr, by rw [← hrv'] at hlt; exact_mod_cast hlt, ?_⟩
  have hw := warmupLoop_length fuel d.length hfuel (by omega)
  simp only [Main5.number_to_factoradic, hw]
  exact fixedLoop_of_valid fuel d r hvalid hrv' hfuel (by omega)

theorem fixed_codec_left_inverse_witness :
    ∃ r, Main5.factoradic_to_number 4 [3, 0, 1, 0] = some r ∧
      r < [3, 0, 1, (0 : Int)].length.factorial ∧
      Main5.number_to_factoradic 4 r [3, 0, 1, (0 : Int)].length = some [3, 0, 1, 0] :=
  fixed_codec_left_inverse 4 [3, 0, 1, 0] (by decide) (by decide) (by decide)

theorem fixedLoop_succ_eq_digitLoop (fuel : Nat) (hfuel : 1 ≤ fuel) :
    ∀ (i t : Nat), fixedLoop fuel (i + 1) t = digitLoop fuel i t := by
  intro i
  induction i with
  | zero =>
    intro t
    have h0 : factorial fuel 0 = some 1 := factorial_eq fuel 0 (by decide) (by omega)
    simp [fixedLoop, digitLoop, h0]
  | succ i ih =>
    intro t
    rw [fixedLoop, digitLoop]
    cases factorial fuel (i + 1) with
    | none => rfl
    | some fact => simp only [ih]

/-- Below `m!`, the fixed-length loop of length `m + k` writes `k` zeros and
then what the loop of length `m` writes. -/
theorem fixedLoop_pad (fuel m t : Nat) (ht : t < m.factorial) :
    ∀ (k : Nat) (ds : List Int), m + k ≤ fuel → m + k ≤ 2147483648 →
      fixedLoop fuel m t = some ds →
      fixedLoop fuel (m + k) t = some (List.replicate k 0 ++ ds) := by
  intro k
  induction k with
  | zero => intro ds _ _ h; simpa using h
  | succ k ih =>
    intro ds hf hl h
    have hfact : factorial fuel (m + k) = some (m + k).factorial :=
      factorial_eq fuel (m + k) (by unfold UINT_SIZE; omega) (by omega)
    have hlt : t < (m + k).factorial := lt_of_lt_of_le ht (Nat.factorial_le (by omega))
    have hq : t / (m + k).factorial = 0 := Nat.div_eq_of_lt hlt
    have hm : t % (m + k).factorial = t := Nat.mod_eq_of_lt hlt
    have hrec := ih ds (by omega) (by omega) h
    have e : m + (k + 1) = m + k + 1 := by omega
    rw [e]
    simp only [fixedLoop, hfact, hq, hm, hrec]
    simp [int_of_ulong, List.replicate_succ]

/-- C18: for `1 ≤ n < 256!` with minimal form `ds` (from `number_to_factoradic`
of `factoradic.c`), the fixed-length `number_to_factoradic` of `main5.c` with
a length `L`, `|ds| ≤ L ≤ 256`, returns `L - |ds|` zeros followed by `ds`;
with `L = |ds|` it returns `ds`. -/
theorem fixed_is_padded_minimal (fuel n : Nat) (hn1 : 1 ≤ n) (hn2 : n < Nat.factorial 256)
    (hfuel : 258 ≤ fuel) :
    ∃ ds, FactoradicC.number_to_factoradic fuel n = some (Except.ok ds) ∧
      (∀ L, ds.length ≤ L → L ≤ 256 →
        Main5.number_to_factoradic fuel n L = some (List.replicate (L - ds.length) 0 ++ ds)) ∧
      Main5.number_to_factoradic fuel n ds.length = some ds := by
  obtain ⟨ds, m, h0, hs, hdec, hm, hds, hm1, hgreatest, hlen, hvalid, hval, hhead⟩ :=
    minimal_digits fuel n hn1 hn2 hfuel
  have hcap : ¬ ((m + 1) % UINT_SIZE > MAX_DIGITS) := by
    unfold UINT_SIZE MAX_DIGITS; omega
  have hmin : FactoradicC.number_to_factoradic fuel n = some (Except.ok ds) := by
    simp only [FactoradicC.number_to_factoradic, h0, hs, hdec, hcap, if_false, hds]
  have hlt : n < (m + 1).factorial := by
    by_contra h
    have := hgreatest (m + 1) (by omega)
    omega
  have hfix : fixedLoop fuel (m + 1) n = some ds := by
    rw [fixedLoop_succ_eq_digitLoop fuel (by omega), hds]
  have hpad : ∀ L, ds.length ≤ L → L ≤ 256 →
      Main5.number_to_factoradic fuel n L = some (List.replicate (L - ds.length) 0 ++ ds) := by
    intro L hL1 hL2
    have hw := warmupLoop_length fuel L (by omega) (by omega)
    have hrec := fixedLoop_pad fuel (m + 1) n hlt (L - ds.length) ds (by omega) (by omega) hfix
    have e : m + 1 + (L - ds.length) = L := by omega
    rw [e] at hrec
    simp only [Main5.number_to_factoradic, hw, hrec]
  refine ⟨ds, hmin, hpad, ?_⟩
  have := hpad ds.length (le_refl _) (by omega)
  simpa using this

theorem fixed_is_padded_minimal_witness :
    ∃ ds, FactoradicC.number_to_factoradic 258 23 = some (Except.ok ds) ∧
      (∀ L, ds.length ≤ L → L ≤ 256 →
        Main5.number_to_factoradic 258 23 L = some (List.replicate (L - ds.length) 0 ++ ds)) ∧
      Main5.number_to_factoradic 258 23 ds.length = some ds :=
  fixed_is_padded_minimal 258 23 (by decide)
    (lt_of_lt_of_le (by decide) (Nat.self_le_factorial 256)) (by decide)

/-! ## The unchecked encoder of `main5.c` -/

/-- The encoding loop of `main5.c` has one way to stop early: an access
outside the initialised cells. -/
theorem main5_encodeLoop_error (length : Nat) :
    ∀ (ds : List Int) (i : Nat) (av : List Int) (e : Failure),
      Main5.encodeLoop length ds i av = Except.error e → e = Failure.undefinedAccess := by
  intro ds
  induction ds with
  | nil => intro i av e h; cases h
  | cons d ds ih =>
    intro i av e h
    simp only [Main5.encodeLoop] at h
    split at h
    · cases h; rfl
    · split at h
      · cases h; rfl
      · split at h
        · rename_i e' hrec
          cases h
          exact ih _ _ _ hrec
        · cases h

/-- C16 (at the digits `[2,2,0]`, and at `n = 6`, `L = 3` in mode 5):
`factoradic_to_permutation` of `main5.c` reports no out-of-range digit. On
`[2,2,0]`, whose digit `2` at position `1` is not an index into the two live
cells, it returns `[2,2,0]` (the stale cell), where `main3.c` fails with the
digit and the position; in mode 5, `6 ≥ 3!` gives the digits `[3,0,0]` and a
read of the cell `avail[3]` that was never written. Whenever the function of
`main5.c` stops early, it is on such an access, never with a digit and a
position. -/
theorem main5_encode_reports_no_digit :
    Main5.factoradic_to_permutation [2, 2, 0] = Except.ok [2, 2, 0] ∧
    Main3.factoradic_to_permutation [2, 2, 0] =
      Except.error (Failure.digitOutOfBounds 2 1) ∧
    Main5.number_to_factoradic 3 6 3 = some [3, 0, 0] ∧
    Main5.number_to_permutation 3 6 3 = some (Except.error Failure.undefinedAccess) ∧
    ∀ d e, Main5.factoradic_to_permutation d = Except.error e →
      e = Failure.undefinedAccess := by
  refine ⟨rfl, rfl, by decide, rfl, ?_⟩
  intro d e h
  simp only [Main5.factoradic_to_permutation] at h
  split at h
  · cases h; rfl
  · exact main5_encodeLoop_error _ _ _ _ _ h

/-! ## The decoder after validation -/

theorem isPermutation_of_validate (p : List Int)
    (h : Main3.validateLoop p.length p (List.replicate p.length false) = Except.ok ()) :
    IsPermutation p := by
  rcases validateLoop_cases p.length p _ [] (seenRep_replicate p.length) with
    ⟨_, hall, hnd⟩ | ⟨pre, x, post, _, herr, _⟩
  · exact ⟨hnd, fun y hy => ⟨(hall y hy).1, (hall y hy).2.1⟩⟩
  · rw [herr] at h
    cases h

/-- C20: when the validation loop of `permutation_to_factoradic` accepts the
input, every search stops inside the live part of the available list: the
function returns `L` digits with `0 ≤ factoradic[i] < L - i` (no access
outside the list is made), and `factoradic_to_permutation` accepts them. -/
theorem decode_search_in_bounds (p : List Int)
    (h : Main3.validateLoop p.length p (List.replicate p.length false) = Except.ok ()) :
    ∃ ds, Main3.permutation_to_factoradic p = Except.ok ds ∧
      decodeLoop p.length p 0 (initAvailable p.length) = Except.ok ds ∧
      ds.length = p.length ∧
      (∀ i, i < p.length → 0 ≤ ds.getD i 0 ∧ ds.getD i 0 < (p.length : Int) - (i : Int)) ∧
      ∃ perm, Main3.factoradic_to_permutation ds = Except.ok perm := by
  obtain ⟨ds, hdec, henc, hvalid, hlen⟩ := decode_valid p (isPermutation_of_validate p h)
  refine ⟨ds, hdec, ?_, hlen, fun i hi => ?_, p, henc⟩
  · simpa only [Main3.permutation_to_factoradic, h] using hdec
  · have := (validDigits_iff ds).1 hvalid i (by omega)
    rw [hlen] at this
    omega

theorem decode_search_in_bounds_witness :
    ∃ ds, Main3.permutation_to_factoradic [1, 3, 0, 2] = Except.ok ds ∧
      decodeLoop [1, 3, 0, (2 : Int)].length [1, 3, 0, 2] 0
        (initAvailable [1, 3, 0, (2 : Int)].length) = Except.ok ds ∧
      ds.length = [1, 3, 0, (2 : Int)].length ∧
      (∀ i, i < [1, 3, 0, (2 : Int)].length →
        0 ≤ ds.getD i 0 ∧ ds.getD i 0 < ([1, 3, 0, (2 : Int)].length : Int) - (i : Int)) ∧
      ∃ perm, Main3.factoradic_to_permutation ds = Except.ok perm :=
  decode_search_in_bounds [1, 3, 0, 2] rfl

/-! ## Digits out of range do not round-trip -/

/-- C19: on a sequence `d` of non-negative `int` digits in which some digit
exceeds its place, `factoradic_to_dec` returns a number `v ≥ 1`, and
`dec_to_factoradic(v)` is never `d`, whatever the fuel; when `v < 256!` it
returns a sequence, different from `d`. -/
theorem out_of_range_digits_no_round_trip (fuel : Nat) (d : List Int)
    (hint : ∀ x ∈ d, IsInt x) (hnonneg : ∀ x ∈ d, 0 ≤ x)
    (hlen : d.length < 2147483648) (hfuel : d.length ≤ fuel)
    (hbad : ∃ p, p < d.length ∧ d.getD p 0 > (d.length : Int) - 1 - (p : Int)) :
    ∃ v, Main3.factoradic_to_dec fuel d = some v ∧ 1 ≤ v ∧
      (∀ fuel', Main3.dec_to_factoradic fuel' v ≠ some d) ∧
      (v < Nat.factorial 256 → ∀ fuel', 258 ≤ fuel' →
        ∃ ds, Main3.dec_to_factoradic fuel' v = some ds ∧ ds ≠ d) := by
  obtain ⟨v, hv, hvv⟩ := sumLoop_eq fuel d.length hlen hfuel d 0 0 (by omega)
    (fun x hx => ⟨hnonneg x hx, (hint x hx).2⟩)
  have hne : ∀ fuel', Main3.dec_to_factoradic fuel' v ≠ some d := by
    intro fuel' h
    obtain ⟨p, hp, hgt⟩ := hbad
    have := dec_to_factoradic_some fuel' v d h p hp
    omega
  have hv1 : 1 ≤ v := by
    by_contra hc
    have hv0 : v = 0 := by omega
    subst hv0
    obtain ⟨p, hp, hgt⟩ := hbad
    have hval : factoradicValue d = 0 := by simpa using hvv.symm
    rw [factoradicValue_eq_sum] at hval
    have hterm : ∀ q ∈ Finset.range d.length,
        0 ≤ d.getD q 0 * ((d.length - 1 - q).factorial : Int) := by
      intro q hq
      have hq' : q < d.length := Finset.mem_range.1 hq
      have h0 : 0 ≤ d.getD q 0 := by
        rw [List.getD_eq_getElem _ _ hq']; exact hnonneg _ (List.getElem_mem hq')
      positivity
    have hzero := (Finset.sum_eq_zero_iff_of_nonneg hterm).1 hval p (Finset.mem_range.2 hp)
    have hF : (0 : Int) < ((d.length - 1 - p).factorial : Int) := by
      exact_mod_cast Nat.factorial_pos _
    have hdp : d.getD p 0 = 0 := by
      rcases mul_eq_zero.1 hzero with h | h
      · exact h
      · omega
    omega
  refine ⟨v, hv, hv1, hne, fun hlt fuel' hf' => ?_⟩
  obtain ⟨ds, hds, _⟩ := dec_to_factoradic_round_trip_pos fuel' v hv1 hlt hf'
  exact ⟨ds, hds, fun he => hne fuel' (he ▸ hds)⟩

theorem out_of_range_digits_no_round_trip_witness :
    ∃ v, Main3.factoradic_to_dec 3 [1, 2, 0] = some v ∧ 1 ≤ v ∧
      (∀ fuel', Main3.dec_to_factoradic fuel' v ≠ some [1, 2, 0]) ∧
      (v < Nat.factorial 256 → ∀ fuel', 258 ≤ fuel' →
        ∃ ds, Main3.dec_to_factoradic fuel' v = some ds ∧ ds ≠ [1, 2, 0]) :=
  out_of_range_digits_no_round_trip 3 [1, 2, 0] (by decide) (by decide) (by decide)
    (by decide) ⟨1, by decide, by decide⟩

/-! ## The digits of the decoder are the Lehmer code -/

theorem pairwise_initAvailable (length : Nat) :
    (initAvailable length).Pairwise (fun a b => a < b) :=
  List.Pairwise.map _ (fun _ _ h => by exact_mod_cast h) (List.pairwise_lt_range length)

theorem perm_initAvailable_of_isPermutation (p : List Int) (hp : IsPermutation p) :
    (initAvailable p.length).Perm p := by
  have hsub : p ⊆ initAvailable p.length := fun x hx => (mem_initAvailable _ x).2 (hp.2 x hx)
  exact ((List.Nodup.subperm hp.1 hsub).perm_of_length_le
    (by rw [length_initAvailable])).symm

/-- In a strictly increasing list, a member sits at the position that counts
the members below it. -/
theorem indexOf_increasing (x : Int) : ∀ (lv : List Int), lv.Pairwise (fun a b => a < b) →
    x ∈ lv → lv.indexOf x = (lv.filter fun y => decide (y < x)).length := by
  intro lv
  induction lv with
  | nil => intro _ h; simp at h
  | cons a l ih =>
    intro hs hx
    obtain ⟨ha, hl⟩ := List.pairwise_cons.1 hs
    by_cases hax : a = x
    · subst hax
      have hnil : (l.filter fun y => decide (y < a)) = [] := by
        rw [List.filter_eq_nil_iff]
        intro b hb
        have := ha b hb
        simp only [decide_eq_true_eq]
        omega
      simp [List.filter_cons, hnil]
    · have hxl : x ∈ l := by
        rcases List.mem_cons.1 hx with h | h
        · exact absurd h.symm hax
        · exact h
      have hlt : a < x := ha x hxl
      rw [List.indexOf_cons_ne _ hax, ih hl hxl]
      simp [List.filter_cons, hlt]

/-- From a state in which the live part of the available list is the
increasing arrangement of the values still to be decoded, the decoding loop
returns their Lehmer code. -/
theorem decodeLoop_lehmer (length : Nat) :
    ∀ (ps : List Int) (i : Nat) (av : List Int), i + ps.length = length → av.length = length →
      (av.take (length - i)).Pairwise (fun a b => a < b) → (av.take (length - i)).Perm ps →
      decodeLoop length ps i av = Except.ok (lehmerCode ps) := by
  intro ps
  induction ps with
  | nil => intro i av _ _ _ _; rfl
  | cons x ps ih =>
    intro i av hi hav hs hperm
    simp only [List.length_cons] at hi
    have hnd : (av.take (length - i)).Nodup := hs.imp (fun h => ne_of_lt h)
    have hx : x ∈ av.take (length - i) := (List.Perm.mem_iff hperm).2 (List.mem_cons_self _ _)
    have hidx : (av.take (length - i)).indexOf x < (av.take (length - i)).length :=
      List.indexOf_lt_length.2 hx
    have hcount := indexOf_increasing x _ hs hx
    generalize hk : (av.take (length - i)).indexOf x = k at hidx hcount
    have hlen : (av.take (length - i)).length = length - i := by
      rw [List.length_take]; omega
    have hkm : k < length - i := by omega
    have hget : (av.take (length - i))[k] = x := by
      subst hk
      exact List.getElem_indexOf _
    have htake := take_shiftLoop av (length - i) k (by omega) hkm
    have hcnt : length - i - 1 - k = length - 1 - i - k := by omega
    have herase : (av.take (length - i)).eraseIdx k = (av.take (length - i)).erase x := by
      rw [← hget]
      exact (List.Nodup.erase_getElem hnd k (by omega)).symm
    have h2 : length - (i + 1) = length - i - 1 := by omega
    have hs' : ((shiftLoop (length - 1 - i - k) k av).take (length - (i + 1))).Pairwise
        (fun a b => a < b) := by
      rw [h2, ← hcnt, htake]
      exact List.Pairwise.sublist (List.eraseIdx_sublist _ _) hs
    have hperm' : ((shiftLoop (length - 1 - i - k) k av).take (length - (i + 1))).Perm ps := by
      rw [h2, ← hcnt, htake, herase]
      have := List.Perm.erase x hperm
      rwa [List.erase_cons_head] at this
    have hrec := ih (i + 1) (shiftLoop (length - 1 - i - k) k av) (by omega)
      (by rw [shiftLoop_length]; exact hav) hs' hperm'
    have hk' : k = (ps.filter fun y => decide (y < x)).length := by
      rw [hcount, (List.Perm.filter _ hperm).length_eq]
      simp [List.filter_cons]
    simp only [decodeLoop, findLoop_live av (length - i) x hx, hk, hrec, lehmerCode]
    rw [← hk']

theorem filter_length_eq_sum (P : Int → Prop) [DecidablePred P] : ∀ (l : List Int),
    (l.filter fun y => decide (P y)).length =
      ∑ j in Finset.range l.length, if P (l.getD j 0) then 1 else 0 := by
  intro l
  induction l with
  | nil => simp
  | cons a l ih =>
    rw [List.length_cons, Finset.sum_range_succ']
    simp only [List.getD_cons_succ, List.getD_cons_zero, ← ih, List.filter_cons]
    by_cases h : P a <;> simp [h]

/-- The entries of `lehmerCode`, read by positions. -/
theorem lehmerCode_getD : ∀ (p : List Int) (i : Nat), i < p.length →
    (lehmerCode p).getD i 0 =
      (((Finset.range p.length).filter
        (fun j => i < j ∧ p.getD j 0 < p.getD i 0)).card : Int) := by
  intro p
  induction p with
  | nil => intro i hi; simp at hi
  | cons x rest ih =>
    intro i hi
    rw [Finset.card_filter, List.length_cons, Finset.sum_range_succ']
    cases i with
    | zero =>
      simp only [lehmerCode, List.getD_cons_zero, List.getD_cons_succ, filter_length_eq_sum]
      simp
    | succ i =>
      have hi' : i < rest.length := by simpa using hi
      simp only [lehmerCode, List.getD_cons_succ, ih i hi', Finset.card_filter]
      simp

theorem lehmerCode_length : ∀ (p : List Int), (lehmerCode p).length = p.length := by
  intro p
  induction p with
  | nil => rfl
  | cons x rest ih => simp [lehmerCode, ih]

/-- C17: for a permutation `p` of `0..L-1`, digit `i` returned by
`permutation_to_factoradic` of `main3.c` is the number of positions `j > i`
with `p[j] < p[i]` (the number of values not yet used that are smaller than
`p[i]`). -/
theorem decode_is_lehmer_code (p : List Int) (hp : IsPermutation p) :
    ∃ ds, Main3.permutation_to_factoradic p = Except.ok ds ∧ ds.length = p.length ∧
      ∀ i, i < p.length →
        ds.getD i 0 =
          (((Finset.range p.length).filter
            (fun j => i < j ∧ p.getD j 0 < p.getD i 0)).card : Int) := by
  have hdec := decodeLoop_lehmer p.length p 0 (initAvailable p.length) (by omega)
    (length_initAvailable _) (by rw [take_initAvailable]; exact pairwise_initAvailable _)
    (by rw [take_initAvailable]; exact perm_initAvailable_of_isPermutation p hp)
  refine ⟨lehmerCode p, ?_, lehmerCode_length p, lehmerCode_getD p⟩
  simp only [Main3.permutation_to_factoradic, validate_of_isPermutation p hp, hdec]

theorem decode_is_lehmer_code_witness :
    ∃ ds, Main3.permutation_to_factoradic [2, 0, 3, 1] = Except.ok ds ∧
      ds.length = [2, 0, 3, (1 : Int)].length ∧
      ∀ i, i < [2, 0, 3, (1 : Int)].length →
        ds.getD i 0 =
          (((Finset.range [2, 0, 3, (1 : Int)].length).filter
            (fun j => i < j ∧ [2, 0, 3, (1 : Int)].getD j 0 < [2, 0, 3, (1 : Int)].getD i 0)).card
              : Int) :=
  decode_is_lehmer_code [2, 0, 3, 1] (by decide)

/-! ## The codec of `main5.c` against the codec of `main3.c` -/

/-- C21: for `L ≤ 256`, on a digit sequence `d` with `0 ≤ d[i] < L - i` the
unchecked `factoradic_to_permutation` of `main5.c` returns the permutation
the checked one of `main3.c` returns, and on a permutation `p` of `0..L-1`
the unchecked `permutation_to_factoradic` of `main5.c` returns the digits the
checked one of `main3.c` returns. -/
theorem main5_refines_main3 (d p : List Int) (hdlen : d.length ≤ 256)
    (hd : ∀ i, i < d.length → 0 ≤ d.getD i 0 ∧ d.getD i 0 < (d.length : Int) - (i : Int))
    (hplen : p.length ≤ 256) (hp : IsPermutation p) :
    (∃ perm, Main3.factoradic_to_permutation d = Except.ok perm ∧
      Main5.factoradic_to_permutation d = Except.ok perm) ∧
    (∃ ds, Main3.permutation_to_factoradic p = Except.ok ds ∧
      Main5.permutation_to_factoradic p = Except.ok ds) := by
  obtain ⟨perm, h3, _⟩ := encode_valid d (validDigits_of_bounds d hd)
  obtain ⟨ds, h3', _⟩ := decode_valid p hp
  exact ⟨⟨perm, h3, main5_encode_of_main3 d perm hdlen h3⟩,
    ⟨ds, h3', main5_decode_of_main3 p ds hplen h3'⟩⟩

theorem main5_refines_main3_witness :
    (∃ perm, Main3.factoradic_to_permutation [3, 1, 1, 0] = Except.ok perm ∧
      Main5.factoradic_to_permutation [3, 1, 1, 0] = Except.ok perm) ∧
    (∃ ds, Main3.permutation_to_factoradic [1, 3, 0, 2] = Except.ok ds ∧
      Main5.permutation_to_factoradic [1, 3, 0, 2] = Except.ok ds) :=
  main5_refines_main3 [3, 1, 1, 0] [1, 3, 0, 2] (by decide) (by decide) (by decide) (by decide)

/-! ## The fixed-length encoder outside its range -/

/-- C22: for `L ≥ 1` and any `n` whose leading quotient `n / (L-1)!` is below
`2^31`, `factoradic_to_number` applied to the `L` digits of the fixed-length
`number_to_factoradic` of `main5.c` returns `n`; the digits after the first
satisfy `0 ≤ d[p] ≤ L-1-p`, and when `n ≥ L!` the first digit is at least
`L`. -/
theorem fixed_preserves_value (fuel n L : Nat) (hL1 : 1 ≤ L) (hL2 : L < 2147483648)
    (hq : n / (L - 1).factorial < 2147483648) (hfuel : L ≤ fuel) :
    ∃ ds, Main5.number_to_factoradic fuel n L = some ds ∧ ds.length = L ∧
      Main5.factoradic_to_number fuel ds = some n ∧
      ds.getD 0 0 = ((n / (L - 1).factorial : Nat) : Int) ∧
      (∀ p, 1 ≤ p → p < ds.length →
        0 ≤ ds.getD p 0 ∧ ds.getD p 0 ≤ (ds.length : Int) - 1 - (p : Int)) ∧
      (L.factorial ≤ n → (L : Int) ≤ ds.getD 0 0) := by
  obtain ⟨i, rfl⟩ : ∃ i, L = i + 1 := ⟨L - 1, by omega⟩
  have he : i + 1 - 1 = i := by omega
  rw [he] at hq ⊢
  obtain ⟨ds, hds, hlen, hvalid, hval⟩ := fixedLoop_any fuel i n hfuel (by omega)
  have hw := warmupLoop_length fuel (i + 1) hfuel (by omega)
  rw [he] at hw
  have hcast := int_of_ulong_small _ hq
  rw [hcast] at hds
  have hbounds := (validDigits_iff ds).1 hvalid
  have hbound : ∀ x ∈ ((n / i.factorial : Nat) : Int) :: ds, 0 ≤ x ∧ x < 2147483648 := by
    intro x hx
    rcases List.mem_cons.1 hx with rfl | hx
    · exact ⟨by positivity, by exact_mod_cast hq⟩
    · obtain ⟨p, hp, rfl⟩ := List.getElem_of_mem hx
      have := hbounds p hp
      rw [List.getD_eq_getElem _ _ hp] at this
      omega
  obtain ⟨r, hr, hrv⟩ := sumLoop_eq fuel (((n / i.factorial : Nat) : Int) :: ds).length
    (by simp [hlen]; omega) (by simp [hlen]; omega) _ 0 0 (by omega) hbound
  have hrn : r = n := by
    simp only [factoradicValue, hlen, hval] at hrv
    have h2 : n / i.factorial * i.factorial + n % i.factorial = n := by
      rw [Nat.mul_comm]; exact Nat.div_add_mod n i.factorial
    have : (r : Int) = ((n / i.factorial * i.factorial + n % i.factorial : Nat) : Int) := by
      push_cast; simpa using hrv
    rw [h2] at this
    exact_mod_cast this
  refine ⟨((n / i.factorial : Nat) : Int) :: ds, ?_, by simp [hlen], ?_, rfl, ?_, ?_⟩
  · simp only [Main5.number_to_factoradic, he, hw, hds]
  · rw [Main5.factoradic_to_number, hr, hrn]
  · intro p hp1 hp2
    obtain ⟨q, rfl⟩ : ∃ q, p = q + 1 := ⟨p - 1, by omega⟩
    have := hbounds q (by simpa using hp2)
    simp only [List.getD_cons_succ, List.length_cons]
    push_cast
    omega
  · intro hn
    have hge : i + 1 ≤ n / i.factorial := by
      rw [Nat.le_div_iff_mul_le (Nat.factorial_pos _)]
      have : (i + 1).factorial = (i + 1) * i.factorial := Nat.factorial_succ i
      omega
    simp only [List.getD_cons_zero]
    exact_mod_cast hge

theorem fixed_preserves_value_witness :
    ∃ ds, Main5.number_to_factoradic 3 20 3 = some ds ∧ ds.length = 3 ∧
      Main5.factoradic_to_number 3 ds = some 20 ∧
      ds.getD 0 0 = ((20 / (3 - 1).factorial : Nat) : Int) ∧
      (∀ p, 1 ≤ p → p < ds.length →
        0 ≤ ds.getD p 0 ∧ ds.getD p 0 ≤ (ds.length : Int) - 1 - (p : Int)) ∧
      (Nat.factorial 3 ≤ 20 → ((3 : Nat) : Int) ≤ ds.getD 0 0) :=
  fixed_preserves_value 3 20 3 (by decide) (by decide) (by decide) (by decide)

/-! ## The invariant of the available list -/

theorem mem_drop_iff_of_nodup (l : List Int) (k : Nat) (h : l.Nodup) (v : Int) :
    v ∈ l.drop k ↔ v ∈ l ∧ v ∉ l.take k := by
  have hsplit := List.take_append_drop k l
  have hnd : (l.take k ++ l.drop k).Nodup := by rw [hsplit]; exact h
  have hdis := (List.nodup_append.1 hnd).2.2
  constructor
  · intro hv
    exact ⟨List.mem_of_mem_drop hv, fun ht => hdis ht hv⟩
  · rintro ⟨hv, hnt⟩
    rw [← hsplit] at hv
    rcases List.mem_append.1 hv with h' | h'
    · exact absurd h' hnt
    · exact h'

theorem lehmerCode_drop : ∀ (k : Nat) (ps : List Int),
    lehmerCode (ps.drop k) = (lehmerCode ps).drop k := by
  intro k
  induction k with
  | zero => intro ps; rfl
  | succ k ih =>
    intro ps
    cases ps with
    | nil => rfl
    | cons x ps => simp only [List.drop_succ_cons, lehmerCode, ih]

/-- After `k` rounds of the decoding loop, started where the live part of the
available list is the increasing arrangement of the values to decode, the
live part is the increasing arrangement of the values left. -/
theorem decodeAvailable_invariant (length : Nat) :
    ∀ (k : Nat) (ps : List Int) (i : Nat) (av : List Int), i + ps.length = length →
      av.length = length → (av.take (length - i)).Pairwise (fun a b => a < b) →
      (av.take (length - i)).Perm ps → k ≤ ps.length →
      ∃ av', decodeAvailable length k ps i av = Except.ok av' ∧ av'.length = length ∧
        (av'.take (length - (i + k))).Pairwise (fun a b => a < b) ∧
        (av'.take (length - (i + k))).Perm (ps.drop k) := by
  intro k
  induction k with
  | zero => intro ps i av _ hav hs hperm _; exact ⟨av, rfl, hav, hs, hperm⟩
  | succ k ih =>
    intro ps i av hi hav hs hperm hk
    cases ps with
    | nil => simp at hk
    | cons x ps =>
      simp only [List.length_cons] at hi hk
      have hnd : (av.take (length - i)).Nodup := hs.imp (fun h => ne_of_lt h)
      have hx : x ∈ av.take (length - i) := (List.Perm.mem_iff hperm).2 (List.mem_cons_self _ _)
      have hidx : (av.take (length - i)).indexOf x < (av.take (length - i)).length :=
        List.indexOf_lt_length.2 hx
      generalize hj : (av.take (length - i)).indexOf x = j at hidx
      have hlen : (av.take (length - i)).length = length - i := by
        rw [List.length_take]; omega
      have hjm : j < length - i := by omega
      have hget : (av.take (length - i))[j] = x := by
        subst hj
        exact List.getElem_indexOf _
      have htake := take_shiftLoop av (length - i) j (by omega) hjm
      have hcnt : length - i - 1 - j = length - 1 - i - j := by omega
      have herase : (av.take (length - i)).eraseIdx j = (av.take (length - i)).erase x := by
        rw [← hget]
        exact (List.Nodup.erase_getElem hnd j (by omega)).symm
      have h2 : length - (i + 1) = length - i - 1 := by omega
      have hs' : ((shiftLoop (length - 1 - i - j) j av).take (length - (i + 1))).Pairwise
          (fun a b => a < b) := by
        rw [h2, ← hcnt, htake]
        exact List.Pairwise.sublist (List.eraseIdx_sublist _ _) hs
      have hperm' : ((shiftLoop (length - 1 - i - j) j av).take (length - (i + 1))).Perm ps := by
        rw [h2, ← hcnt, htake, herase]
        have := List.Perm.erase x hperm
        rwa [List.erase_cons_head] at this
      obtain ⟨av', hst, hlen', hsk, hpk⟩ := ih ps (i + 1) (shiftLoop (length - 1 - i - j) j av)
        (by omega) (by rw [shiftLoop_length]; exact hav) hs' hperm' (by omega)
      have e : i + 1 + k = i + (k + 1) := by omega
      rw [e] at hsk hpk
      refine ⟨av', ?_, hlen', hsk, by simpa using hpk⟩
      simp only [decodeAvailable, findLoop_live av (length - i) x hx, hj, hst]

/-- After `k` rounds of the encoding loop on valid digits, started where the
live part of the available list is increasing, the live part is the
increasing arrangement of the values the loop has still to output, and the
rest of the run continues from that state. -/
theorem encodeAvailable_invariant (length : Nat) :
    ∀ (k : Nat) (ds : List Int) (i : Nat) (av : List Int), i + ds.length = length →
      av.length = length → (av.take (length - i)).Pairwise (fun a b => a < b) →
      ValidDigits ds → k ≤ ds.length →
      ∃ av' perm, Main3.encodeLoop length ds i av = Except.ok perm ∧
        Main3.encodeAvailable length k ds i av = Except.ok av' ∧ av'.length = length ∧
        (av'.take (length - (i + k))).Pairwise (fun a b => a < b) ∧
        (av'.take (length - (i + k))).Perm (perm.drop k) ∧
        Main3.encodeLoop length (ds.drop k) (i + k) av' = Except.ok (perm.drop k) := by
  intro k
  induction k with
  | zero =>
    intro ds i av hi hav hs hvalid _
    obtain ⟨perm, he, _, hperm⟩ := encodeLoop_decodeLoop length ds i av hi hav
      (hs.imp (fun h => ne_of_lt h)) hvalid
    exact ⟨av, perm, he, rfl, hav, hs, hperm.symm, he⟩
  | succ k ih =>
    intro ds i av hi hav hs hvalid hk
    cases ds with
    | nil => simp at hk
    | cons d ds =>
      obtain ⟨hd0, hd1, hvalid'⟩ := hvalid
      simp only [List.length_cons] at hi hk
      obtain ⟨j, rfl⟩ : ∃ j : Nat, d = (j : Int) := ⟨d.toNat, (Int.toNat_of_nonneg hd0).symm⟩
      have hj : j ≤ ds.length := by exact_mod_cast hd1
      have hjav : j < av.length := by omega
      have hcheck : ¬ ((j : Int) < 0 ∨ (j : Int) ≥ (length : Int) - (i : Int)) := by omega
      have htake := take_shiftLoop av (length - i) j (by omega) (by omega)
      have h2 : length - (i + 1) = length - i - 1 := by omega
      have hs' : ((shiftLoop (length - i - 1 - j) j av).take (length - (i + 1))).Pairwise
          (fun a b => a < b) := by
        rw [h2, htake]
        exact List.Pairwise.sublist (List.eraseIdx_sublist _ _) hs
      obtain ⟨av', perm, he, hst, hlen', hsk, hpk, hrun⟩ :=
        ih ds (i + 1) (shiftLoop (length - i - 1 - j) j av) (by omega)
          (by rw [shiftLoop_length]; exact hav) hs' hvalid' (by omega)
      have e : i + 1 + k = i + (k + 1) := by omega
      rw [e] at hsk hpk hrun
      refine ⟨av', av[j] :: perm, ?_, ?_, hlen', hsk, by simpa using hpk, by simpa using hrun⟩
      · simp only [Main3.encodeLoop, if_neg hcheck, Int.toNat_ofNat,
          List.getElem?_eq_getElem hjav, he]
      · simp only [Main3.encodeAvailable, if_neg hcheck, Int.toNat_ofNat,
          List.getElem?_eq_getElem hjav, hst]

/-- C23: on valid input, after `k` rounds (`0 ≤ k ≤ L`) of the main loop of
`factoradic_to_permutation`, respectively `permutation_to_factoradic`, of
`main3.c`, the first `L - k` cells of the available list are strictly
increasing and hold exactly the values of `0..L-1` that are not among the
first `k` values output, respectively consumed; the rest of the conversion
is the run of the loop from that state. -/
theorem available_list_invariant (d p : List Int) (kd kp : Nat)
    (hd : ∀ i, i < d.length → 0 ≤ d.getD i 0 ∧ d.getD i 0 < (d.length : Int) - (i : Int))
    (hp : IsPermutation p) (hkd : kd ≤ d.length) (hkp : kp ≤ p.length) :
    (∃ perm av, Main3.factoradic_to_permutation d = Except.ok perm ∧
      Main3.encodeAvailable d.length kd d 0 (initAvailable d.length) = Except.ok av ∧
      av.length = d.length ∧
      (av.take (d.length - kd)).Pairwise (fun a b => a < b) ∧
      (∀ v, v ∈ av.take (d.length - kd) ↔
        (0 ≤ v ∧ v < (d.length : Int) ∧ v ∉ perm.take kd)) ∧
      Main3.encodeLoop d.length (d.drop kd) kd av = Except.ok (perm.drop kd)) ∧
    (∃ ds av, Main3.permutation_to_factoradic p = Except.ok ds ∧
      decodeAvailable p.length kp p 0 (initAvailable p.length) = Except.ok av ∧
      av.length = p.length ∧
      (av.take (p.length - kp)).Pairwise (fun a b => a < b) ∧
      (∀ v, v ∈ av.take (p.length - kp) ↔
        (0 ≤ v ∧ v < (p.length : Int) ∧ v ∉ p.take kp)) ∧
      decodeLoop p.length (p.drop kp) kp av = Except.ok (ds.drop kp)) := by
  constructor
  · obtain ⟨av, perm, he, hst, hlen, hs, hperm, hrun⟩ :=
      encodeAvailable_invariant d.length kd d 0 (initAvailable d.length) (by omega)
        (length_initAvailable _) (by rw [take_initAvailable]; exact pairwise_initAvailable _)
        (validDigits_of_bounds d hd) hkd
    simp only [Nat.zero_add] at hs hperm hrun
    obtain ⟨perm', he', _, hperm0, _⟩ := encode_valid d (validDigits_of_bounds d hd)
    have hpp : perm' = perm := by
      rw [Main3.factoradic_to_permutation, he] at he'
      exact (Except.ok.inj he').symm
    subst hpp
    have hnd : perm'.Nodup := (List.Perm.nodup_iff hperm0).2 (nodup_initAvailable _)
    refine ⟨perm', av, he', hst, hlen, hs, fun v => ?_, hrun⟩
    rw [List.Perm.mem_iff hperm, mem_drop_iff_of_nodup perm' kd hnd v, List.Perm.mem_iff hperm0,
      mem_initAvailable]
    tauto
  · obtain ⟨av, hst, hlen, hs, hperm⟩ :=
      decodeAvailable_invariant p.length kp p 0 (initAvailable p.length) (by omega)
        (length_initAvailable _) (by rw [take_initAvailable]; exact pairwise_initAvailable _)
        (by rw [take_initAvailable]; exact perm_initAvailable_of_isPermutation p hp) hkp
    simp only [Nat.zero_add] at hs hperm
    have hdec := decodeLoop_lehmer p.length p 0 (initAvailable p.length) (by omega)
      (length_initAvailable _) (by rw [take_initAvailable]; exact pairwise_initAvailable _)
      (by rw [take_initAvailable]; exact perm_initAvailable_of_isPermutation p hp)
    have hrun := decodeLoop_lehmer p.length (p.drop kp) kp av
      (by rw [List.length_drop]; omega) hlen hs hperm
    rw [lehmerCode_drop] at hrun
    refine ⟨lehmerCode p, av, ?_, hst, hlen, hs, fun v => ?_, hrun⟩
    · simp only [Main3.permutation_to_factoradic, validate_of_isPermutation p hp, hdec]
    · rw [List.Perm.mem_iff hperm, mem_drop_iff_of_nodup p kp hp.1 v]
      constructor
      · rintro ⟨hv, hnt⟩
        exact ⟨(hp.2 v hv).1, (hp.2 v hv).2, hnt⟩
      · rintro ⟨h0, h1, hnt⟩
        refine ⟨?_, hnt⟩
        exact (List.Perm.mem_iff (perm_initAvailable_of_isPermutation p hp)).1
          ((mem_initAvailable _ v).2 ⟨h0, h1⟩)

theorem available_list_invariant_witness :
    (∃ perm av, Main3.factoradic_to_permutation [2, 0, 1, 0] = Except.ok perm ∧
      Main3.encodeAvailable [2, 0, 1, (0 : Int)].length 2 [2, 0, 1, 0] 0
        (initAvailable [2, 0, 1, (0 : Int)].length) = Except.ok av ∧
      av.length = [2, 0, 1, (0 : Int)].length ∧
      (av.take ([2, 0, 1, (0 : Int)].length - 2)).Pairwise (fun a b => a < b) ∧
      (∀ v, v ∈ av.take ([2, 0, 1, (0 : Int)].length - 2) ↔
        (0 ≤ v ∧ v < ([2, 0, 1, (0 : Int)].length : Int) ∧ v ∉ perm.take 2)) ∧
      Main3.encodeLoop [2, 0, 1, (0 : Int)].length ([2, 0, 1, (0 : Int)].drop 2) 2 av =
        Except.ok (perm.drop 2)) ∧
    (∃ ds av, Main3.permutation_to_factoradic [2, 0, 3, 1] = Except.ok ds ∧
      decodeAvailable [2, 0, 3, (1 : Int)].length 3 [2, 0, 3, 1] 0
        (initAvailable [2, 0, 3, (1 : Int)].length) = Except.ok av ∧
      av.length = [2, 0, 3, (1 : Int)].length ∧
      (av.take ([2, 0, 3, (1 : Int)].length - 3)).Pairwise (fun a b => a < b) ∧
      (∀ v, v ∈ av.take ([2, 0, 3, (1 : Int)].length - 3) ↔
        (0 ≤ v ∧ v < ([2, 0, 3, (1 : Int)].length : Int) ∧ v ∉ [2, 0, 3, (1 : Int)].take 3)) ∧
      decodeLoop [2, 0, 3, (1 : Int)].length ([2, 0, 3, (1 : Int)].drop 3) 3 av =
        Except.ok (ds.drop 3)) :=
  available_list_invariant [2, 0, 1, 0] [2, 0, 3, 1] 2 3 (by decide) (by decide)
    (by decide) (by decide)

end Factoradic
